import Mathlib

/-!
Verification of the solver cache-manager core (`solver/cachemanager.go`).

The Go code is shallowly embedded: backend stores become explicit data,
the per-key identity cache (`CacheKey.ids`) becomes an association list
threaded through the functions, `identity.NewID` becomes an injectable
generator fed from a counter, and the recursion through the dependency
graph is bounded by an explicit fuel parameter (`none` = fuel exhausted).
Backend walk failures are modelled by failure flags carried by the
backend value; write operations are recorded in an operation trace.
-/

namespace Solver

/-- Backend identifiers are opaque strings. -/
abbrev Ident := String

/-- Edge label of a cache link: (Input, Output, Digest, Selector), as in
`CacheInfoLink` of the source. -/
structure CacheInfoLink where
  input : Nat
  output : Nat
  digest : String
  selector : String
deriving DecidableEq

/-- A result association stored under a key identifier (`CacheResult`). -/
structure CacheResult where
  id : Ident
  createdAt : Nat
deriving DecidableEq

/-- In-memory cache key node: object tag (standing for Go object identity),
content digest, output index, root identifier field `ID`, and the ordered
dependency slots, each a list of (parent key, selector) pairs. -/
inductive CacheKey : Type where
  | mk (tag : Nat) (digest : String) (output : Nat) (id : Ident)
      (deps : List (List (CacheKey × String))) : CacheKey

def CacheKey.tag : CacheKey → Nat
  | .mk t _ _ _ _ => t

def CacheKey.digest : CacheKey → String
  | .mk _ d _ _ _ => d

def CacheKey.output : CacheKey → Nat
  | .mk _ _ o _ _ => o

def CacheKey.ID : CacheKey → Ident
  | .mk _ _ _ i _ => i

def CacheKey.deps : CacheKey → List (List (CacheKey × String))
  | .mk _ _ _ _ ds => ds

/-- Key/Link storage backend (`CacheKeyStorage`), with explicit failure
behaviour for the walk operations: `walkLinksFail p l` means a
`WalkLinks(p, l, ·)` call returns an error; `walkResultsFail i = some n`
means a `WalkResults(i, ·)` call fails after delivering the first `n`
associations. -/
structure Backend where
  links : List (Ident × CacheInfoLink × Ident)
  walkLinksFail : Ident → CacheInfoLink → Bool
  exs : List Ident
  results : Ident → List CacheResult
  walkResultsFail : Ident → Option Nat
  load : Ident → Ident → Option CacheResult

/-- `HasLink(p, l, t)` of the backend. -/
def Backend.hasLink (b : Backend) (p : Ident) (l : CacheInfoLink) (t : Ident) : Bool :=
  decide ((p, l, t) ∈ b.links)

/-- `AddLink(p, l, t)` of the backend: appends the link. -/
def Backend.addLink (b : Backend) (p : Ident) (l : CacheInfoLink) (t : Ident) : Backend :=
  { b with links := b.links ++ [(p, l, t)] }

/-- The identifiers delivered by a successful `WalkLinks(p, l, ·)` call:
all link targets out of `p` whose label matches `l`. -/
def linkTargets (b : Backend) (p : Ident) (l : CacheInfoLink) : List Ident :=
  b.links.filterMap fun e => if (e.1, e.2.1) = (p, l) then some e.2.2 else none

/-- Manager-side mutable state: the per-key identity cache (tag ↦ backend
identifier, the single-manager view of `CacheKey.ids`), the counter feeding
the random-identifier generator (`identity.NewID`), and a tag counter used
to give freshly constructed key objects distinct object tags. -/
structure CMState where
  ids : List (Nat × Ident)
  ctr : Nat
  tagCtr : Nat
deriving DecidableEq

/-- Backend operations recorded in a trace: link-existence checks, link
writes, and result-association releases. -/
inductive Op : Type where
  | hasLink (p : Ident) (l : CacheInfoLink) (t : Ident) : Op
  | addLink (p : Ident) (l : CacheInfoLink) (t : Ident) : Op
  | release (id : Ident) : Op
deriving DecidableEq

def Op.isAddLink : Op → Bool
  | .addLink _ _ _ => true
  | _ => false

/-- Inner loop of `getIDFromDeps` over one dependency slot's parents.
`resolve` stands for the recursive `c.getID` call on a parent key.
For slot 0 each parent's walked targets are unioned into `matches`; for a
later slot `matches` is intersected with each parent's walked targets in
turn (`m2` in the source). A failing `WalkLinks` clears `matches` and
breaks out of the slot (`matches = map[string]struct{}{}; break`); the
returned flag records that a walk failed. -/
def slotStep (b : Backend) (resolve : CacheKey → CMState → Option (Ident × CMState))
    (i output : Nat) (digest : String) :
    List (CacheKey × String) → List Ident → CMState → Option (List Ident × CMState × Bool)
  | [], ms, s => some (ms, s, false)
  | (ck, sel) :: rest, ms, s =>
    match resolve ck s with
    | none => none
    | some (pid, s₁) =>
      let l : CacheInfoLink := ⟨i, output, digest, sel⟩
      if b.walkLinksFail pid l then
        some ([], s₁, true)
      else
        let ts := linkTargets b pid l
        let ms' := if i = 0 then ms ++ ts else ms.filter (· ∈ ts)
        slotStep b resolve i output digest rest ms' s₁

/-- Outer loop of `getIDFromDeps` over the dependency slots, with the
source's guard `i == 0 || len(matches) > 0` (a slot is skipped entirely
once the candidate set is empty, except slot 0). -/
def slotsLoop (b : Backend) (resolve : CacheKey → CMState → Option (Ident × CMState))
    (output : Nat) (digest : String) :
    List (List (CacheKey × String)) → Nat → List Ident → CMState →
      Option (List Ident × CMState × Bool)
  | [], _, ms, s => some (ms, s, false)
  | g :: rest, i, ms, s =>
    if i = 0 ∨ ms ≠ [] then
      match slotStep b resolve i output digest g ms s with
      | none => none
      | some (ms', s', f) =>
        match slotsLoop b resolve output digest rest (i + 1) ms' s' with
        | none => none
        | some (ms'', s'', f') => some (ms'', s'', f || f')
    else
      slotsLoop b resolve output digest rest (i + 1) ms s

/-- Body of `getIDFromDeps`: run the slot loops on the key's dependencies;
return the first member of the candidate set if it is non-empty
(`for k := range matches { return k }`), otherwise mint a fresh random
identifier from the generator (`identity.NewID`). -/
def deriveCore (gen : Nat → Ident) (b : Backend)
    (resolve : CacheKey → CMState → Option (Ident × CMState))
    (k : CacheKey) (s : CMState) : Option (Ident × CMState × Bool) :=
  match slotsLoop b resolve k.output k.digest k.deps 0 [] s with
  | none => none
  | some (ms, s', f) =>
    match ms with
    | id :: _ => some (id, s', f)
    | [] => some (gen s'.ctr, { s' with ctr := s'.ctr + 1 }, f)

/-- `c.getID(k)`: return the cached identifier for the key if present;
a dependency-free key resolves to its literal `ID` field; otherwise the
identifier is derived from the dependencies and cached. Fuel bounds the
recursion depth through the dependency graph. -/
def getID (gen : Nat → Ident) (b : Backend) :
    Nat → CacheKey → CMState → Option (Ident × CMState)
  | 0, _, _ => none
  | fuel + 1, k, s =>
    match s.ids.lookup k.tag with
    | some id => some (id, s)
    | none =>
      if k.deps.isEmpty then
        some (k.ID, { s with ids := (k.tag, k.ID) :: s.ids })
      else
        match deriveCore gen b (fun ck s' => getID gen b fuel ck s') k s with
        | none => none
        | some (id, s', _) => some (id, { s' with ids := (k.tag, id) :: s'.ids })

/-- `c.getIDFromDeps(k)`, with the failure flag of the walks exposed. -/
def getIDFromDeps (gen : Nat → Ident) (b : Backend) (fuel : Nat)
    (k : CacheKey) (s : CMState) : Option (Ident × CMState × Bool) :=
  deriveCore gen b (fun ck s' => getID gen b fuel ck s') k s

/-- The decimal digit decoding used only to prove that `Nat.repr` is
injective. -/
def digitVal (c : Char) : Nat := c.toNat - 48

def decodeVal (a : Nat) (l : List Char) : Nat :=
  l.foldl (fun a c => 10 * a + digitVal c) a

/-- The value of appending the decimal digits of `n` after the digits of
value `a`. -/
def pushNat (a : Nat) (n : Nat) : Nat :=
  if n < 10 then 10 * a + n
  else 10 * pushNat a (n / 10) + n % 10
termination_by n
decreasing_by exact Nat.div_lt_self (by omega) (by omega)

/-- `strings.HasPrefix`, on character data. -/
def hasPrefix (p s : String) : Bool := p.data.isPrefixOf s.data

/-- `digest.Digest.Encoded()` of the external digest library: everything
after the first colon. -/
def afterColon : List Char → List Char
  | [] => []
  | c :: rest => if c = ':' then rest else afterColon rest

def digestEncoded (d : String) : String := ⟨afterColon d.data⟩

/-- Modelled from the spec: `cachedigest.FromBytes` (not under `src/`) is a
deterministic, collision-free content hash producing an algorithm-prefixed
digest string; the spec relies only on determinism and injectivity
("collision-free by construction of the hash function"). -/
def cacheHash (s : String) : String := "sha256:" ++ s

/-- `rootKey(dgst, output)`: hash of `"%s@%d"` of the digest and output,
except that a digest already carrying the `random:` marker is rebuilt as
`"random:" + dgst.Encoded()`. -/
def rootKey (dgst : String) (output : Nat) : Ident :=
  let out := cacheHash (dgst ++ "@" ++ Nat.repr output)
  if hasPrefix "random:" dgst then "random:" ++ digestEncoded dgst
  else out

/-- `c.newKeyWithID(id, dgst, output)`: a fresh dependency-free key object
wrapping `id`, pre-resolved for this manager (`k.ids[c] = id`). The tag
counter supplies the new object's identity. -/
def newKeyWithID (id : Ident) (dgst : String) (output : Nat) (s : CMState) :
    CacheKey × CMState :=
  (CacheKey.mk s.tagCtr dgst output id [],
   { s with tagCtr := s.tagCtr + 1, ids := (s.tagCtr, id) :: s.ids })

/-- `c.newRootKey(dgst, output)`. -/
def newRootKey (dgst : String) (output : Nat) (s : CMState) : CacheKey × CMState :=
  newKeyWithID (rootKey dgst output) dgst output s

/-- One dependency of a `Query` call together with the identifiers its
link walk delivered (`dep.results` in the source). -/
structure QDep where
  key : CacheKey
  selector : String
  results : List Ident

/-- Construction of `allRes` entries: each walked identifier not seen
before is wrapped in a fresh key via `newKeyWithID`. -/
def addNewKeys (dgst : String) (output : Nat) :
    List Ident → List (Ident × CacheKey) → CMState → List (Ident × CacheKey) × CMState
  | [], acc, s => (acc, s)
  | t :: ts, acc, s =>
    if (acc.lookup t).isSome then addNewKeys dgst output ts acc s
    else
      let (k, s') := newKeyWithID t dgst output s
      addNewKeys dgst output ts (acc ++ [(t, k)]) s'

/-- First phase of `Query`: walk each dependency's matching links,
recording the per-dependency result sets and the combined `allRes` map.
A failing walk aborts the whole query with an error. -/
def queryWalkDeps (gen : Nat → Ident) (b : Backend) (fuel input output : Nat)
    (dgst : String) :
    List (CacheKey × String) → List (Ident × CacheKey) → CMState →
      Option (List QDep × List (Ident × CacheKey) × CMState)
  | [], allRes, s => some ([], allRes, s)
  | (ck, sel) :: rest, allRes, s =>
    match getID gen b fuel ck s with
    | none => none
    | some (pid, s₁) =>
      let l : CacheInfoLink := ⟨input, output, dgst, sel⟩
      if b.walkLinksFail pid l then none
      else
        let ts := linkTargets b pid l
        let (allRes₁, s₂) := addNewKeys dgst output ts allRes s₁
        match queryWalkDeps gen b fuel input output dgst rest allRes₁ s₂ with
        | none => none
        | some (qdeps, allRes₂, s₃) => some (⟨ck, sel, ts⟩ :: qdeps, allRes₂, s₃)

/-- Second phase of `Query`, inner loop: link one discovered identifier
from every dependency whose walk did not already reach it. -/
def crossLinkDep (gen : Nat → Ident) (fuel input output : Nat) (dgst : String)
    (id : Ident) (key : CacheKey) :
    List QDep → Backend → CMState → Option (Backend × CMState × List Op)
  | [], b, s => some (b, s, [])
  | d :: rest, b, s =>
    if id ∈ d.results then crossLinkDep gen fuel input output dgst id key rest b s
    else
      match getID gen b fuel d.key s with
      | none => none
      | some (pid, s₁) =>
        match getID gen b fuel key s₁ with
        | none => none
        | some (tid, s₂) =>
          let l : CacheInfoLink := ⟨input, output, dgst, d.selector⟩
          let b₁ := b.addLink pid l tid
          match crossLinkDep gen fuel input output dgst id key rest b₁ s₂ with
          | none => none
          | some (b₂, s₃, t) => some (b₂, s₃, Op.addLink pid l tid :: t)

/-- Second phase of `Query`, outer loop over `allRes`. -/
def crossLinkAll (gen : Nat → Ident) (fuel input output : Nat) (dgst : String) :
    List (Ident × CacheKey) → List QDep → Backend → CMState →
      Option (Backend × CMState × List Op)
  | [], _, b, s => some (b, s, [])
  | (id, key) :: rest, qdeps, b, s =>
    match crossLinkDep gen fuel input output dgst id key qdeps b s with
    | none => none
    | some (b₁, s₁, t₁) =>
      match crossLinkAll gen fuel input output dgst rest qdeps b₁ s₁ with
      | none => none
      | some (b₂, s₂, t₂) => some (b₂, s₂, t₁ ++ t₂)

/-- `c.Query(deps, input, dgst, output)`: walk the dependencies' matching
links, cross-link discovered identifiers against the dependencies that
missed them, handle the root-key special case for an empty `deps`, and
return the discovered keys. `none` is an error (or exhausted fuel);
`some` carries the keys, the updated backend, the state, and the write
trace. -/
def query (gen : Nat → Ident) (b : Backend) (fuel : Nat)
    (deps : List (CacheKey × String)) (input : Nat) (dgst : String) (output : Nat)
    (s : CMState) : Option (List CacheKey × Backend × CMState × List Op) :=
  match queryWalkDeps gen b fuel input output dgst deps [] s with
  | none => none
  | some (qdeps, allRes, s₁) =>
    match crossLinkAll gen fuel input output dgst allRes qdeps b s₁ with
    | none => none
    | some (b₁, s₂, ops) =>
      if deps.isEmpty then
        if rootKey dgst output ∈ b₁.exs then
          let (k, s₃) := newRootKey dgst output s₂
          some ([k], b₁, s₃, ops)
        else
          some ([], b₁, s₂, ops)
      else
        some (allRes.map (·.2), b₁, s₂, ops)

/-- A `CacheRecord` returned by `Records`. -/
structure CacheRecord where
  id : Ident
  keyTag : Nat
  createdAt : Nat
deriving DecidableEq

/-- Callback loop of `Records` over the walked result associations:
an association whose artifact exists in the result store becomes a record;
one whose artifact is absent is released instead. -/
def recordsLoop (resExists : Ident → Bool) (keyTag : Nat) :
    List CacheResult → List CacheRecord × List Op
  | [] => ([], [])
  | cr :: rest =>
    let (recs, ops) := recordsLoop resExists keyTag rest
    if resExists cr.id then ({ id := cr.id, keyTag := keyTag, createdAt := cr.createdAt } :: recs, ops)
    else (recs, Op.release cr.id :: ops)

/-- `c.Records(ck)`: resolve the key, walk its result associations,
keep those whose artifact exists and release the rest. A failing walk
returns the error (first component `none`) after the releases already
performed for the delivered prefix. -/
def records (gen : Nat → Ident) (b : Backend) (resExists : Ident → Bool) (fuel : Nat)
    (ck : CacheKey) (s : CMState) :
    Option (Option (List CacheRecord) × CMState × List Op) :=
  match getID gen b fuel ck s with
  | none => none
  | some (id, s₁) =>
    match b.walkResultsFail id with
    | some n =>
      let (_, ops) := recordsLoop resExists ck.tag ((b.results id).take n)
      some (none, s₁, ops)
    | none =>
      let (recs, ops) := recordsLoop resExists ck.tag (b.results id)
      some (some recs, s₁, ops)

/-- A `LoadedResult`: the bulk-loaded artifact handle paired with the key
(by tag) and stored association it was matched to. -/
structure LRes where
  handle : String
  keyTag : Nat
  cr : CacheResult
deriving DecidableEq

/-- Dependency loop of `filterResults` (flattened over one slot): a failed
recursive call releases every accumulated result and propagates the error;
otherwise the recursive results are appended. `fr` stands for the recursive
`filterResults` call. -/
def frDeps
    (fr : List (Ident × String) → CacheKey → List Ident → CMState →
      Option (List LRes × List (Ident × String) × List Ident × CMState × List Op × Option Unit)) :
    List (CacheKey × String) → List LRes → List (Ident × String) → List Ident → CMState →
      List Op →
      Option (List LRes × List (Ident × String) × List Ident × CMState × List Op × Option Unit)
  | [], acc, m, visited, s, ops => some (acc, m, visited, s, ops, none)
  | (ck, _) :: rest, acc, m, visited, s, ops =>
    match fr m ck visited s with
    | none => none
    | some (_, m₁, visited₁, s₁, ops₁, some e) =>
      some ([], m₁, visited₁, s₁, ops ++ ops₁ ++ acc.map (fun r => Op.release r.handle), some e)
    | some (res, m₁, visited₁, s₁, ops₁, none) =>
      frDeps fr rest (acc ++ res) m₁ visited₁ s₁ (ops ++ ops₁)

/-- Slot loop of `filterResults` over `ck.Deps()`. -/
def frSlots
    (fr : List (Ident × String) → CacheKey → List Ident → CMState →
      Option (List LRes × List (Ident × String) × List Ident × CMState × List Op × Option Unit)) :
    List (List (CacheKey × String)) → List LRes → List (Ident × String) → List Ident →
      CMState → List Op →
      Option (List LRes × List (Ident × String) × List Ident × CMState × List Op × Option Unit)
  | [], acc, m, visited, s, ops => some (acc, m, visited, s, ops, none)
  | g :: rest, acc, m, visited, s, ops =>
    match frDeps fr g acc m visited s ops with
    | none => none
    | some (res, m₁, visited₁, s₁, ops₁, some e) => some (res, m₁, visited₁, s₁, ops₁, some e)
    | some (res, m₁, visited₁, s₁, ops₁, none) => frSlots fr rest res m₁ visited₁ s₁ ops₁

/-- `c.filterResults(m, ck, visited)`: resolve the key, skip it if already
visited, match the bulk mapping `m` against the associations delivered by
`WalkResults` (removing the matched entry from `m`), and recurse into the
dependency graph. A `WalkResults` failure releases the results accumulated
so far — but its error is assigned to a variable that shadows the named
return value, so the traversal continues, the released handles stay in the
returned list, and no error is reported. -/
def filterResults (gen : Nat → Ident) (b : Backend) :
    Nat → List (Ident × String) → CacheKey → List Ident → CMState →
      Option (List LRes × List (Ident × String) × List Ident × CMState × List Op × Option Unit)
  | 0, _, _, _, _ => none
  | fuel + 1, m, ck, visited, s =>
    match getID gen b (fuel + 1) ck s with
    | none => none
    | some (id, s₁) =>
      if id ∈ visited then some ([], m, visited, s₁, [], none)
      else
        let visited₁ := id :: visited
        let crs := b.results id
        let delivered := match b.walkResultsFail id with
          | none => crs
          | some n => crs.take n
        let (res₀, m₁) := match delivered, m.lookup id with
          | c :: _, some h =>
            ([LRes.mk h ck.tag c], m.filter (fun (e : Ident × String) => ¬ e.1 = id))
          | _, _ => ([], m)
        let relOps := match b.walkResultsFail id with
          | some _ => res₀.map (fun (r : LRes) => Op.release r.handle)
          | none => []
        frSlots (fun m' ck' v' s' => filterResults gen b fuel m' ck' v' s')
          ck.deps res₀ m₁ visited₁ s₁ relOps

/-- The bulk-capable path of `c.LoadWithParents(rec)`: load the stored
association, fetch the bulk ancestor mapping, filter it against the key
graph, and — following the source faithfully — on a `filterResults` error
release every leftover mapping entry inside the error branch, then release
every leftover entry again in the unconditional loop, and return the
results with a nil error. -/
def loadWithParents (gen : Nat → Ident) (b : Backend)
    (lwp : CacheResult → Option (List (Ident × String))) (fuel : Nat)
    (recKey : CacheKey) (recId : Ident) (s : CMState) :
    Option (List LRes × CMState × List Op × Option Unit) :=
  match getID gen b fuel recKey s with
  | none => none
  | some (kid, s₁) =>
    match b.load kid recId with
    | none => some ([], s₁, [], some ())
    | some cr =>
      match lwp cr with
      | none => some ([], s₁, [], some ())
      | some m =>
        match filterResults gen b fuel m recKey [] s₁ with
        | none => none
        | some (results, m₁, _, s₂, ops, err) =>
          let errRel := match err with
            | some _ => m₁.map (fun (e : Ident × String) => Op.release e.2)
            | none => []
          let leftoverRel := m₁.map (fun (e : Ident × String) => Op.release e.2)
          some (results, s₂, ops ++ errRel ++ leftoverRel, none)

/-- Entry loop of `ensurePersistentKey` over one dependency slot:
for each (parent, selector), resolve the parent and check the link from it
to `id`; if absent, first ensure the parent's own persistence recursively
(`ensure`), then add the link. -/
def epkDeps
    (ensure : CacheKey → Backend → CMState → Option (Backend × CMState × List Op))
    (resolve : Backend → CacheKey → CMState → Option (Ident × CMState))
    (id : Ident) (output : Nat) (dgst : String) (i : Nat) :
    List (CacheKey × String) → Backend → CMState → Option (Backend × CMState × List Op)
  | [], b, s => some (b, s, [])
  | (ck, sel) :: rest, b, s =>
    let l : CacheInfoLink := ⟨i, output, dgst, sel⟩
    match resolve b ck s with
    | none => none
    | some (ckID, s₁) =>
      if b.hasLink ckID l id then
        match epkDeps ensure resolve id output dgst i rest b s₁ with
        | none => none
        | some (b', s', t) => some (b', s', Op.hasLink ckID l id :: t)
      else
        match ensure ck b s₁ with
        | none => none
        | some (b₁, s₂, t₁) =>
          let b₂ := b₁.addLink ckID l id
          match epkDeps ensure resolve id output dgst i rest b₂ s₂ with
          | none => none
          | some (b₃, s₃, t₂) =>
            some (b₃, s₃, Op.hasLink ckID l id :: (t₁ ++ Op.addLink ckID l id :: t₂))

/-- Slot loop of `ensurePersistentKey`. -/
def epkSlots
    (ensure : CacheKey → Backend → CMState → Option (Backend × CMState × List Op))
    (resolve : Backend → CacheKey → CMState → Option (Ident × CMState))
    (id : Ident) (output : Nat) (dgst : String) :
    Nat → List (List (CacheKey × String)) → Backend → CMState →
      Option (Backend × CMState × List Op)
  | _, [], b, s => some (b, s, [])
  | i, g :: rest, b, s =>
    match epkDeps ensure resolve id output dgst i g b s with
    | none => none
    | some (b₁, s₁, t₁) =>
      match epkSlots ensure resolve id output dgst (i + 1) rest b₁ s₁ with
      | none => none
      | some (b₂, s₂, t₂) => some (b₂, s₂, t₁ ++ t₂)

/-- `c.ensurePersistentKey(k)`: resolve the key's identifier, then make
sure every dependency edge implied by the key's graph is present as a
link, recursing into a parent before linking it when its link is missing. -/
def ensurePersistentKey (gen : Nat → Ident) :
    Nat → CacheKey → Backend → CMState → Option (Backend × CMState × List Op)
  | 0, _, _, _ => none
  | fuel + 1, k, b, s =>
    match getID gen b (fuel + 1) k s with
    | none => none
    | some (id, s₁) =>
      epkSlots (fun ck b' s' => ensurePersistentKey gen fuel ck b' s')
        (fun b' ck s' => getID gen b' (fuel + 1) ck s')
        id k.output k.digest 0 k.deps b s₁

/-- Spec-side candidate set of §4.2 as claim C1 words it: an identifier
survives iff at least one parent in every slot links to it. Stated over
the identifiers resolved in the current state. -/
def specSurvives (b : Backend) (s : CMState) (k : CacheKey) (x : Ident) : Prop :=
  k.deps.isEmpty = false ∧
    ∀ gi : Fin k.deps.length,
      ∃ e ∈ k.deps.get gi, (s.ids.lookup e.1.tag).isSome ∧
        x ∈ linkTargets b ((s.ids.lookup e.1.tag).getD "") ⟨gi.1, k.output, k.digest, e.2⟩

instance (b : Backend) (s : CMState) (k : CacheKey) (x : Ident) :
    Decidable (specSurvives b s k x) := by
  unfold specSurvives
  infer_instance

/-- Preservation of identity-cache entries: every (tag ↦ identifier)
binding of `s` is still found in `s'`. -/
def IdsMono (s s' : CMState) : Prop :=
  ∀ t v, s.ids.lookup t = some v → s'.ids.lookup t = some v

/-- Candidate-set membership as the code computes it (amended C1): an
identifier survives iff at least one slot-0 parent links to it and every
parent of every later slot links to it. Stated over the identifiers
resolved in the current state. -/
def codeSurvives (b : Backend) (s : CMState) (k : CacheKey) (x : Ident) : Prop :=
  (∃ e ∈ k.deps.headD [],
    x ∈ linkTargets b ((s.ids.lookup e.1.tag).getD "") ⟨0, k.output, k.digest, e.2⟩) ∧
  ∀ gi : Fin k.deps.length, gi.1 ≠ 0 → ∀ e ∈ k.deps.get gi,
    x ∈ linkTargets b ((s.ids.lookup e.1.tag).getD "") ⟨gi.1, k.output, k.digest, e.2⟩

instance (b : Backend) (s : CMState) (k : CacheKey) (x : Ident) :
    Decidable (codeSurvives b s k x) := by
  unfold codeSurvives
  infer_instance

/-- All identity-cache entries carry tags below the tag counter, so keys
constructed by `newKeyWithID` never collide with existing entries. -/
def TagsBounded (s : CMState) : Prop := ∀ tv ∈ s.ids, tv.1 < s.tagCtr

instance (s : CMState) : Decidable (TagsBounded s) := by
  unfold TagsBounded
  infer_instance

/-- Shape of an `allRes` entry built by `Query`: a dependency-free key
wrapping the discovered identifier, pre-resolved in the identity cache. -/
def AccEntryOK (s : CMState) (p : Ident × CacheKey) : Prop :=
  p.2.ID = p.1 ∧ p.2.deps = [] ∧ p.2.tag < s.tagCtr ∧ s.ids.lookup p.2.tag = some p.1

/-! ### Decimal rendering is injective -/

theorem digitChar_toNat_of_lt : ∀ m, m < 10 → (Nat.digitChar m).toNat = m + 48 := by decide

theorem decodeVal_cons (a : Nat) (c : Char) (l : List Char) :
    decodeVal a (c :: l) = decodeVal (10 * a + digitVal c) l := rfl

theorem decodeVal_nil (a : Nat) : decodeVal a [] = a := rfl

theorem decode_toDigitsCore :
    ∀ (fuel n a : Nat) (ds : List Char), n < 10 ^ (fuel + 1) →
      decodeVal a (Nat.toDigitsCore 10 (fuel + 1) n ds) = decodeVal (pushNat a n) ds := by
  intro fuel
  induction fuel with
  | zero =>
    intro n a ds h
    have hd : n / 10 = 0 := Nat.div_eq_of_lt (by simpa using h)
    rw [show Nat.toDigitsCore 10 1 n ds = Nat.digitChar (n % 10) :: ds from by
      simp [Nat.toDigitsCore, hd]]
    rw [decodeVal_cons, pushNat]
    simp only [if_pos (show n < 10 by simpa using h)]
    unfold digitVal
    rw [Nat.mod_eq_of_lt (show n < 10 by simpa using h),
      digitChar_toNat_of_lt n (by simpa using h), Nat.add_sub_cancel]
  | succ f ih =>
    intro n a ds h
    by_cases h0 : n / 10 = 0
    · have hn : n < 10 := by omega
      rw [show Nat.toDigitsCore 10 (f + 1 + 1) n ds = Nat.digitChar (n % 10) :: ds from by
        simp [Nat.toDigitsCore, h0]]
      rw [decodeVal_cons, pushNat]
      simp only [if_pos hn]
      unfold digitVal
      rw [Nat.mod_eq_of_lt hn, digitChar_toNat_of_lt n hn, Nat.add_sub_cancel]
    · have h10 : ¬ n < 10 := by omega
      have hb : n / 10 < 10 ^ (f + 1) := by
        rw [Nat.div_lt_iff_lt_mul (by omega)]
        calc n < 10 ^ (f + 1 + 1) := h
          _ = 10 ^ (f + 1) * 10 := by rw [pow_succ]
      rw [show Nat.toDigitsCore 10 (f + 1 + 1) n ds
          = Nat.toDigitsCore 10 (f + 1) (n / 10) (Nat.digitChar (n % 10) :: ds) from by
        simp [Nat.toDigitsCore, h0]]
      rw [ih (n / 10) a _ hb, decodeVal_cons]
      rw [show pushNat a n = 10 * pushNat a (n / 10) + n % 10 from by
        rw [pushNat]; simp [h10]]
      congr 1
      unfold digitVal
      rw [digitChar_toNat_of_lt (n % 10) (by omega)]
      omega

theorem pushNat_zero : ∀ n : Nat, pushNat 0 n = n := by
  intro n
  induction n using Nat.strong_induction_on with
  | _ n ih =>
    rw [pushNat]
    by_cases h : n < 10
    · simp [h]
    · simp only [if_neg h]
      rw [ih (n / 10) (Nat.div_lt_self (by omega) (by omega))]
      omega

theorem decodeVal_toDigits (n : Nat) : decodeVal 0 (Nat.toDigits 10 n) = n := by
  unfold Nat.toDigits
  rw [decode_toDigitsCore n n 0 []
    (lt_of_lt_of_le (Nat.lt_pow_self (by omega) n) (Nat.pow_le_pow_right (by omega) (by omega)))]
  rw [decodeVal_nil, pushNat_zero]

theorem natRepr_injective {m n : Nat} (h : Nat.repr m = Nat.repr n) : m = n := by
  have hd : Nat.toDigits 10 m = Nat.toDigits 10 n := by
    have h2 := congrArg String.data h
    simpa [Nat.repr, List.asString] using h2
  have h3 := congrArg (decodeVal 0) hd
  rwa [decodeVal_toDigits, decodeVal_toDigits] at h3

/-! ### rootKey facts -/

theorem hasPrefix_iff {p s : String} :
    hasPrefix p s = true ↔ ∃ r : List Char, s.data = p.data ++ r := by
  unfold hasPrefix
  rw [ List.isPrefixOf_iff_prefix]
  constructor
  · rintro ⟨t, ht⟩
    exact ⟨t, ht.symm⟩
  · rintro ⟨t, ht⟩
    exact ⟨t, ht.symm⟩

theorem randomMarker_data : "random:".data = ['r', 'a', 'n', 'd', 'o', 'm', ':'] := rfl

theorem afterColon_random (r : List Char) :
    afterColon (['r', 'a', 'n', 'd', 'o', 'm', ':'] ++ r) = r := by
  simp [afterColon]

theorem rootKey_of_random {d : String} (o : Nat) (h : hasPrefix "random:" d = true) :
    rootKey d o = d := by
  obtain ⟨r, hr⟩ := hasPrefix_iff.mp h
  unfold rootKey
  rw [if_pos h]
  apply String.ext
  rw [String.data_append]
  unfold digestEncoded
  rw [hr, randomMarker_data, afterColon_random]

theorem rootKey_of_not_random {d : String} (o : Nat) (h : hasPrefix "random:" d = false) :
    rootKey d o = cacheHash (d ++ "@" ++ Nat.repr o) := by
  unfold rootKey
  simp [h]

theorem cacheHash_injective {a b : String} (h : cacheHash a = cacheHash b) : a = b := by
  unfold cacheHash at h
  have h2 := congrArg String.data h
  rw [String.data_append, String.data_append] at h2
  exact String.ext (List.append_cancel_left h2)

/-- C8: resolution of a dependency-free key returns the key's literal `ID`
field verbatim; for identical (digest, output) the root identifier computed
by `rootKey` is the same across repeated calls and across independent key
objects built with the same fields, and equals the hash of the digest
concatenated with "@" and the output index — except digests carrying the
`random:` marker, which pass through unchanged. -/
theorem c8_rootIdentity :
    (∀ (gen : Nat → Ident) (b : Backend) (fuel : Nat) (k : CacheKey) (s : CMState),
        k.deps = [] → s.ids.lookup k.tag = none →
        (getID gen b (fuel + 1) k s).map (·.1) = some k.ID) ∧
    (∀ d o, hasPrefix "random:" d = false →
        rootKey d o = cacheHash (d ++ "@" ++ Nat.repr o)) ∧
    (∀ d o, hasPrefix "random:" d = true → rootKey d o = d) ∧
    (∀ (gen₁ gen₂ : Nat → Ident) (b₁ b₂ : Backend) (f₁ f₂ : Nat) (k₁ k₂ : CacheKey)
        (s₁ s₂ : CMState),
        k₁.deps = [] → k₂.deps = [] → s₁.ids.lookup k₁.tag = none →
        s₂.ids.lookup k₂.tag = none → k₁.ID = k₂.ID →
        (getID gen₁ b₁ (f₁ + 1) k₁ s₁).map (·.1) = (getID gen₂ b₂ (f₂ + 1) k₂ s₂).map (·.1)) := by
  refine ⟨?_, ?_, ?_, ?_⟩
  · intro gen b fuel k s hdeps hl
    simp [getID, hl, hdeps]
  · exact fun d o h => rootKey_of_not_random o h
  · exact fun d o h => rootKey_of_random o h
  · intro gen₁ gen₂ b₁ b₂ f₁ f₂ k₁ k₂ s₁ s₂ h1 h2 hl1 hl2 hid
    simp [getID, hl1, hl2, h1, h2, hid]

theorem c8_rootIdentity_witness :
    ((CacheKey.mk 0 "sha256:d" 1 "rid" []).deps = [] ∧
      (getID Nat.repr ⟨[], fun _ _ => false, [], fun _ => [], fun _ => none, fun _ _ => none⟩
          1 (CacheKey.mk 0 "sha256:d" 1 "rid" []) ⟨[], 0, 0⟩).map (·.1) = some "rid") ∧
    (hasPrefix "random:" "random:abc" = true ∧ rootKey "random:abc" 3 = "random:abc") ∧
    (hasPrefix "random:" "sha256:d" = false ∧
      rootKey "sha256:d" 2 = cacheHash ("sha256:d" ++ "@" ++ Nat.repr 2)) := by
  refine ⟨⟨rfl, c8_rootIdentity.1 Nat.repr _ 0 _ _ rfl rfl⟩,
    ⟨by decide, c8_rootIdentity.2.2.1 "random:abc" 3 (by decide)⟩,
    ⟨by decide, c8_rootIdentity.2.1 "sha256:d" 2 (by decide)⟩⟩

/-- C10: for a digest with the `random:` marker, `rootKey` ignores the
output index entirely — any two output indices map to the same identifier —
whereas for non-random digests distinct outputs yield distinct
identifiers. -/
theorem c10_rootKey_random_ignores_output :
    (∀ (d : String) (o₁ o₂ : Nat), hasPrefix "random:" d = true →
        rootKey d o₁ = rootKey d o₂) ∧
    (∀ (d : String) (o₁ o₂ : Nat), hasPrefix "random:" d = false → o₁ ≠ o₂ →
        rootKey d o₁ ≠ rootKey d o₂) := by
  constructor
  · intro d o₁ o₂ h
    rw [rootKey_of_random o₁ h, rootKey_of_random o₂ h]
  · intro d o₁ o₂ h hne heq
    rw [rootKey_of_not_random o₁ h, rootKey_of_not_random o₂ h] at heq
    have h2 := congrArg String.data (cacheHash_injective heq)
    rw [String.data_append, String.data_append] at h2
    exact hne (natRepr_injective (String.ext (List.append_cancel_left h2)))

theorem c10_rootKey_random_ignores_output_witness :
    (hasPrefix "random:" "random:abc" = true ∧
      rootKey "random:abc" 0 = rootKey "random:abc" 7) ∧
    (hasPrefix "random:" "sha256:x" = false ∧ (0 : Nat) ≠ 1 ∧
      rootKey "sha256:x" 0 ≠ rootKey "sha256:x" 1) := by
  exact ⟨⟨by decide, c10_rootKey_random_ignores_output.1 "random:abc" 0 7 (by decide)⟩,
    ⟨by decide, by decide,
      c10_rootKey_random_ignores_output.2 "sha256:x" 0 1 (by decide) (by decide)⟩⟩

/-! ### Identity resolution: memoization lemmas -/

theorem idsMono_refl (s : CMState) : IdsMono s s := fun _ _ h => h

theorem idsMono_trans {s₁ s₂ s₃ : CMState} (h₁ : IdsMono s₁ s₂) (h₂ : IdsMono s₂ s₃) :
    IdsMono s₁ s₃ := fun t v h => h₂ t v (h₁ t v h)

theorem idsMono_insert {s : CMState} {a : Nat} {x : Ident} {ids' : List (Nat × Ident)}
    (hl : s.ids.lookup a = none) (hs : s.ids = ids') :
    IdsMono s { s with ids := (a, x) :: ids', ctr := s.ctr, tagCtr := s.tagCtr } := by
  intro t v h
  subst hs
  by_cases ht : t = a
  · subst ht
    rw [hl] at h
    cases h
  · have hb : (t == a) = false := by simpa using ht
    simpa [List.lookup, hb] using h

theorem getID_hit {gen : Nat → Ident} {b : Backend} {fuel : Nat} {k : CacheKey}
    {s : CMState} {id : Ident} (h : s.ids.lookup k.tag = some id) :
    getID gen b (fuel + 1) k s = some (id, s) := by
  simp [getID, h]

theorem slotStep_idsMono {b : Backend} {resolve : CacheKey → CMState → Option (Ident × CMState)}
    {i out : Nat} {dg : String}
    (hres : ∀ {ck s id s'}, resolve ck s = some (id, s') → IdsMono s s') :
    ∀ {entries : List (CacheKey × String)} {ms : List Ident} {s : CMState}
      {r : List Ident × CMState × Bool},
      slotStep b resolve i out dg entries ms s = some r → IdsMono s r.2.1 := by
  intro entries
  induction entries with
  | nil =>
    intro ms s r h
    simp only [slotStep, Option.some.injEq] at h
    rw [← h]
    exact idsMono_refl s
  | cons e rest ih =>
    intro ms s r h
    obtain ⟨ck, sel⟩ := e
    simp only [slotStep] at h
    cases hr : resolve ck s with
    | none => rw [hr] at h; cases h
    | some p =>
      obtain ⟨pid, s₁⟩ := p
      rw [hr] at h
      simp only at h
      by_cases hw : b.walkLinksFail pid ⟨i, out, dg, sel⟩ = true
      · rw [if_pos hw] at h
        cases h
        exact hres hr
      · rw [if_neg hw] at h
        exact idsMono_trans (hres hr) (ih h)

theorem slotsLoop_idsMono {b : Backend}
    {resolve : CacheKey → CMState → Option (Ident × CMState)} {out : Nat} {dg : String}
    (hres : ∀ {ck s id s'}, resolve ck s = some (id, s') → IdsMono s s') :
    ∀ {slots : List (List (CacheKey × String))} {i : Nat} {ms : List Ident} {s : CMState}
      {r : List Ident × CMState × Bool},
      slotsLoop b resolve out dg slots i ms s = some r → IdsMono s r.2.1 := by
  intro slots
  induction slots with
  | nil =>
    intro i ms s r h
    simp only [slotsLoop, Option.some.injEq] at h
    rw [← h]
    exact idsMono_refl s
  | cons g rest ih =>
    intro i ms s r h
    simp only [slotsLoop] at h
    by_cases hg : i = 0 ∨ ms ≠ []
    · rw [if_pos hg] at h
      cases hs : slotStep b resolve i out dg g ms s with
      | none => rw [hs] at h; cases h
      | some p =>
        obtain ⟨ms', s', f⟩ := p
        rw [hs] at h
        simp only at h
        cases hs2 : slotsLoop b resolve out dg rest (i + 1) ms' s' with
        | none => rw [hs2] at h; cases h
        | some q =>
          obtain ⟨ms'', s'', f'⟩ := q
          rw [hs2] at h
          simp only [Option.some.injEq, Prod.mk.injEq] at h
          have hm := idsMono_trans (slotStep_idsMono hres hs) (ih hs2)
          rw [← h]
          exact hm
    · rw [if_neg hg] at h
      exact ih h

theorem deriveCore_idsMono {gen : Nat → Ident} {b : Backend}
    {resolve : CacheKey → CMState → Option (Ident × CMState)}
    (hres : ∀ {ck s id s'}, resolve ck s = some (id, s') → IdsMono s s') :
    ∀ {k : CacheKey} {s : CMState} {r : Ident × CMState × Bool},
      deriveCore gen b resolve k s = some r → IdsMono s r.2.1 := by
  intro k s r h
  simp only [deriveCore] at h
  cases hs : slotsLoop b resolve k.output k.digest k.deps 0 [] s with
  | none => rw [hs] at h; cases h
  | some p =>
    obtain ⟨ms, s', f⟩ := p
    rw [hs] at h
    simp only at h
    have hm := slotsLoop_idsMono hres hs
    cases ms with
    | nil =>
      simp only [Option.some.injEq, Prod.mk.injEq] at h
      rw [← h]
      exact hm
    | cons x xs =>
      simp only [Option.some.injEq, Prod.mk.injEq] at h
      rw [← h]
      exact hm

theorem getID_idsMono : ∀ (fuel : Nat) {gen : Nat → Ident} {b : Backend} {k : CacheKey}
    {s : CMState} {id : Ident} {s' : CMState},
    getID gen b fuel k s = some (id, s') → IdsMono s s' := by
  intro fuel
  induction fuel with
  | zero => intro gen b k s id s' h; cases h
  | succ f ih =>
    intro gen b k s id s' h
    simp only [getID] at h
    cases hl : s.ids.lookup k.tag with
    | some v =>
      rw [hl] at h
      simp only [Option.some.injEq, Prod.mk.injEq] at h
      rw [← h.2]
      exact idsMono_refl s
    | none =>
      rw [hl] at h
      simp only at h
      by_cases hd : k.deps.isEmpty = true
      · rw [if_pos hd] at h
        simp only [Option.some.injEq, Prod.mk.injEq] at h
        rw [← h.2]
        exact idsMono_insert hl rfl
      · rw [if_neg hd] at h
        cases hc : deriveCore gen b (fun ck s' => getID gen b f ck s') k s with
        | none => rw [hc] at h; cases h
        | some p =>
          obtain ⟨id₂, s₂, f₂⟩ := p
          rw [hc] at h
          simp only [Option.some.injEq, Prod.mk.injEq] at h
          have hm : IdsMono s s₂ := deriveCore_idsMono (fun hx => ih hx) hc
          rw [← h.2]
          intro t v hv
          have hv₂ := hm t v hv
          by_cases ht : t = k.tag
          · subst ht
            rw [hl] at hv
            cases hv
          · have hb : (t == k.tag) = false := by simpa using ht
            simpa [List.lookup, hb] using hv₂

theorem getID_post : ∀ {fuel : Nat} {gen : Nat → Ident} {b : Backend} {k : CacheKey}
    {s : CMState} {id : Ident} {s' : CMState},
    getID gen b fuel k s = some (id, s') → s'.ids.lookup k.tag = some id := by
  intro fuel gen b k s id s' h
  match fuel with
  | 0 => cases h
  | f + 1 =>
    simp only [getID] at h
    cases hl : s.ids.lookup k.tag with
    | some v =>
      rw [hl] at h
      simp only [Option.some.injEq, Prod.mk.injEq] at h
      rw [← h.2, ← h.1]
      exact hl
    | none =>
      rw [hl] at h
      simp only at h
      by_cases hd : k.deps.isEmpty = true
      · rw [if_pos hd] at h
        simp only [Option.some.injEq, Prod.mk.injEq] at h
        rw [← h.2, ← h.1]
        simp [List.lookup_cons]
      · rw [if_neg hd] at h
        cases hc : deriveCore gen b (fun ck s' => getID gen b f ck s') k s with
        | none => rw [hc] at h; cases h
        | some p =>
          obtain ⟨id₂, s₂, f₂⟩ := p
          rw [hc] at h
          simp only [Option.some.injEq, Prod.mk.injEq] at h
          rw [← h.2, ← h.1]
          simp [List.lookup_cons]

/-- C9: the per-manager identity cache is populated lazily and
monotonically: a successful resolve leaves its identifier cached for the
key, an immediately repeated resolve returns the same identifier with the
state unchanged, pre-existing cache entries survive every resolve, and a
cached entry is never changed by any later resolve. -/
theorem c9_getID_memo_monotone :
    (∀ (gen : Nat → Ident) (b : Backend) (fuel : Nat) (k : CacheKey) (s : CMState)
        (id : Ident) (s' : CMState), getID gen b fuel k s = some (id, s') →
        s'.ids.lookup k.tag = some id ∧
        ∀ fuel' b' gen', getID gen' b' (fuel' + 1) k s' = some (id, s')) ∧
    (∀ (gen : Nat → Ident) (b : Backend) (fuel : Nat) (k : CacheKey) (s : CMState)
        (id : Ident) (s' : CMState), getID gen b fuel k s = some (id, s') →
        IdsMono s s') ∧
    (∀ (gen : Nat → Ident) (b : Backend) (fuel : Nat) (k : CacheKey) (s : CMState)
        (id : Ident) (s' : CMState) (gen' : Nat → Ident) (b' : Backend) (fuel' : Nat)
        (k' : CacheKey) (id' : Ident) (s'' : CMState),
        getID gen b fuel k s = some (id, s') →
        getID gen' b' fuel' k' s' = some (id', s'') →
        s''.ids.lookup k.tag = some id) := by
  refine ⟨?_, ?_, ?_⟩
  · intro gen b fuel k s id s' h
    exact ⟨getID_post h, fun fuel' b' gen' => getID_hit (getID_post h)⟩
  · intro gen b fuel k s id s' h
    exact getID_idsMono fuel h
  · intro gen b fuel k s id s' gen' b' fuel' k' id' s'' h h'
    exact getID_idsMono fuel' h' k.tag id (getID_post h)

theorem c9_getID_memo_monotone_witness :
    (getID Nat.repr ⟨[], fun _ _ => false, [], fun _ => [], fun _ => none, fun _ _ => none⟩
        1 (CacheKey.mk 7 "sha256:d" 0 "rid" []) ⟨[(3, "w")], 0, 0⟩
      = some ("rid", ⟨[(7, "rid"), (3, "w")], 0, 0⟩)) ∧
    (List.lookup 7 [(7, "rid"), (3, "w")] = some "rid" ∧
      getID Nat.repr ⟨[], fun _ _ => false, [], fun _ => [], fun _ => none, fun _ _ => none⟩
          2 (CacheKey.mk 7 "sha256:d" 0 "rid" []) ⟨[(7, "rid"), (3, "w")], 0, 0⟩
        = some ("rid", ⟨[(7, "rid"), (3, "w")], 0, 0⟩)) ∧
    List.lookup 3 [(7, "rid"), (3, "w")] = some "w" := by
  have h := c9_getID_memo_monotone.1 Nat.repr
    ⟨[], fun _ _ => false, [], fun _ => [], fun _ => none, fun _ _ => none⟩ 1
    (CacheKey.mk 7 "sha256:d" 0 "rid" []) ⟨[(3, "w")], 0, 0⟩ "rid"
    ⟨[(7, "rid"), (3, "w")], 0, 0⟩ (by decide)
  have h2 := c9_getID_memo_monotone.2.1 Nat.repr
    ⟨[], fun _ _ => false, [], fun _ => [], fun _ => none, fun _ _ => none⟩ 1
    (CacheKey.mk 7 "sha256:d" 0 "rid" []) ⟨[(3, "w")], 0, 0⟩ "rid"
    ⟨[(7, "rid"), (3, "w")], 0, 0⟩ (by decide)
  exact ⟨by decide, ⟨h.1, h.2 1 _ Nat.repr⟩, h2 3 "w" (by decide)⟩

/-! ### Candidate-set computation of getIDFromDeps -/

theorem slotStep_flag_nil {b : Backend} {resolve : CacheKey → CMState → Option (Ident × CMState)}
    {i out : Nat} {dg : String} :
    ∀ {entries : List (CacheKey × String)} {ms msOut : List Ident} {s sOut : CMState},
      slotStep b resolve i out dg entries ms s = some (msOut, sOut, true) → msOut = [] := by
  intro entries
  induction entries with
  | nil =>
    intro ms msOut s sOut h
    simp [slotStep] at h
  | cons e rest ih =>
    intro ms msOut s sOut h
    obtain ⟨ck, sel⟩ := e
    simp only [slotStep] at h
    cases hr : resolve ck s with
    | none => rw [hr] at h; cases h
    | some p =>
      obtain ⟨pid, s₁⟩ := p
      rw [hr] at h
      simp only at h
      by_cases hw : b.walkLinksFail pid ⟨i, out, dg, sel⟩ = true
      · rw [if_pos hw] at h
        simp only [Option.some.injEq, Prod.mk.injEq] at h
        exact h.1.symm
      · rw [if_neg hw] at h
        exact ih h

theorem slotsLoop_ms_nil {b : Backend} {resolve : CacheKey → CMState → Option (Ident × CMState)}
    {out : Nat} {dg : String} :
    ∀ (slots : List (List (CacheKey × String))) (i : Nat) (s : CMState), i ≠ 0 →
      slotsLoop b resolve out dg slots i [] s = some ([], s, false) := by
  intro slots
  induction slots with
  | nil => intro i s hi; simp [slotsLoop]
  | cons g rest ih =>
    intro i s hi
    simp only [slotsLoop]
    rw [if_neg (by simp [hi])]
    exact ih (i + 1) s (by omega)

theorem slotsLoop_flag_nil {b : Backend}
    {resolve : CacheKey → CMState → Option (Ident × CMState)} {out : Nat} {dg : String} :
    ∀ {slots : List (List (CacheKey × String))} {i : Nat} {ms msOut : List Ident}
      {s sOut : CMState},
      slotsLoop b resolve out dg slots i ms s = some (msOut, sOut, true) → msOut = [] := by
  intro slots
  induction slots with
  | nil =>
    intro i ms msOut s sOut h
    simp [slotsLoop] at h
  | cons g rest ih =>
    intro i ms msOut s sOut h
    simp only [slotsLoop] at h
    by_cases hg : i = 0 ∨ ms ≠ []
    · rw [if_pos hg] at h
      cases hs : slotStep b resolve i out dg g ms s with
      | none => rw [hs] at h; cases h
      | some p =>
        obtain ⟨ms', s', f⟩ := p
        rw [hs] at h
        simp only at h
        cases hs2 : slotsLoop b resolve out dg rest (i + 1) ms' s' with
        | none => rw [hs2] at h; cases h
        | some q =>
          obtain ⟨ms'', s'', f'⟩ := q
          rw [hs2] at h
          simp only [Option.some.injEq, Prod.mk.injEq] at h
          obtain ⟨h1, h2, h3⟩ := h
          cases hf' : f' with
          | true => rw [← h1]; exact ih (hf' ▸ hs2)
          | false =>
            have hf : f = true := by
              rw [hf'] at h3
              simpa using h3
            have hms' : ms' = [] := slotStep_flag_nil (hf ▸ hs)
            rw [hms'] at hs2
            rw [slotsLoop_ms_nil rest (i + 1) s' (by omega)] at hs2
            simp only [Option.some.injEq, Prod.mk.injEq] at hs2
            rw [← h1, ← hs2.1]
    · rw [if_neg hg] at h
      exact ih h

theorem slotStep_char {b : Backend} {resolve : CacheKey → CMState → Option (Ident × CMState)}
    {i out : Nat} {dg : String}
    (hres : ∀ (ck : CacheKey) (s'' : CMState) (v : Ident),
      s''.ids.lookup ck.tag = some v → resolve ck s'' = some (v, s'')) :
    ∀ {entries : List (CacheKey × String)} {ms msOut : List Ident} {s sOut : CMState},
      (∀ e ∈ entries, (s.ids.lookup e.1.tag).isSome = true) →
      slotStep b resolve i out dg entries ms s = some (msOut, sOut, false) →
      sOut = s ∧
      ∀ x, x ∈ msOut ↔
        (if i = 0 then
          x ∈ ms ∨ ∃ e ∈ entries,
            x ∈ linkTargets b ((s.ids.lookup e.1.tag).getD "") ⟨i, out, dg, e.2⟩
        else
          x ∈ ms ∧ ∀ e ∈ entries,
            x ∈ linkTargets b ((s.ids.lookup e.1.tag).getD "") ⟨i, out, dg, e.2⟩) := by
  intro entries
  induction entries with
  | nil =>
    intro ms msOut s sOut hmem h
    simp only [slotStep, Option.some.injEq, Prod.mk.injEq] at h
    obtain ⟨h1, h2, _⟩ := h
    subst h1
    constructor
    · exact h2.symm
    · intro x
      by_cases hi : i = 0 <;> simp [hi]
  | cons e rest ih =>
    intro ms msOut s sOut hmem h
    obtain ⟨ck, sel⟩ := e
    have hv : ∃ v, s.ids.lookup ck.tag = some v := by
      have := hmem (ck, sel) (by simp)
      cases hvv : s.ids.lookup ck.tag with
      | none => rw [hvv] at this; cases this
      | some v => exact ⟨v, rfl⟩
    obtain ⟨v, hv⟩ := hv
    simp only [slotStep] at h
    rw [hres ck s v hv] at h
    simp only at h
    by_cases hw : b.walkLinksFail v ⟨i, out, dg, sel⟩ = true
    · rw [if_pos hw] at h
      simp at h
    · rw [if_neg hw] at h
      have hrest : ∀ e ∈ rest, (s.ids.lookup e.1.tag).isSome = true := by
        intro e he
        exact hmem e (by simp [he])
      obtain ⟨hs, hchar⟩ := ih hrest h
      refine ⟨hs, ?_⟩
      intro x
      rw [hchar x]
      by_cases hi : i = 0
      · simp only [if_pos hi]
        subst hi
        simp only [List.mem_append, List.mem_cons]
        constructor
        · rintro (⟨hx | hx⟩ | ⟨e, he, hx⟩)
          · exact Or.inl hx
          · exact Or.inr ⟨(ck, sel), by simp, by simpa [hv] using hx⟩
          · exact Or.inr ⟨e, by simp [he], hx⟩
        · rintro (hx | ⟨e, he, hx⟩)
          · exact Or.inl (Or.inl hx)
          · rcases (by simpa using he : e = (ck, sel) ∨ e ∈ rest) with rfl | hm
            · exact Or.inl (Or.inr (by simpa [hv] using hx))
            · exact Or.inr ⟨e, hm, hx⟩
      · simp only [if_neg hi]
        simp only [List.mem_filter, decide_eq_true_eq]
        constructor
        · rintro ⟨⟨hx1, hx2⟩, hx3⟩
          refine ⟨hx1, ?_⟩
          intro e he
          rcases (by simpa using he : e = (ck, sel) ∨ e ∈ rest) with rfl | hm
          · simpa [hv] using hx2
          · exact hx3 e hm
        · rintro ⟨hx1, hx2⟩
          refine ⟨⟨hx1, ?_⟩, ?_⟩
          · have := hx2 (ck, sel) (by simp)
            simpa [hv] using this
          · intro e he
            exact hx2 e (by simp [he])

theorem slotsLoop_tail_char {b : Backend}
    {resolve : CacheKey → CMState → Option (Ident × CMState)} {out : Nat} {dg : String}
    (hres : ∀ (ck : CacheKey) (s'' : CMState) (v : Ident),
      s''.ids.lookup ck.tag = some v → resolve ck s'' = some (v, s'')) :
    ∀ {slots : List (List (CacheKey × String))} {i : Nat} {ms msOut : List Ident}
      {s sOut : CMState},
      (∀ g ∈ slots, ∀ e ∈ g, (s.ids.lookup e.1.tag).isSome = true) →
      i ≠ 0 →
      slotsLoop b resolve out dg slots i ms s = some (msOut, sOut, false) →
      sOut = s ∧
      ∀ x, x ∈ msOut ↔ x ∈ ms ∧ ∀ (j : Fin slots.length), ∀ e ∈ slots.get j,
        x ∈ linkTargets b ((s.ids.lookup e.1.tag).getD "") ⟨i + j.1, out, dg, e.2⟩ := by
  intro slots
  induction slots with
  | nil =>
    intro i ms msOut s sOut hmem hi h
    simp only [slotsLoop, Option.some.injEq, Prod.mk.injEq] at h
    obtain ⟨h1, h2, _⟩ := h
    refine ⟨h2.symm, ?_⟩
    intro x
    rw [← h1]
    constructor
    · intro hx
      exact ⟨hx, fun j => j.elim0⟩
    · intro hx
      exact hx.1
  | cons g rest ih =>
    intro i ms msOut s sOut hmem hi h
    simp only [slotsLoop] at h
    by_cases hg : i = 0 ∨ ms ≠ []
    · rw [if_pos hg] at h
      cases hs : slotStep b resolve i out dg g ms s with
      | none => rw [hs] at h; cases h
      | some p =>
        obtain ⟨ms', s', f⟩ := p
        rw [hs] at h
        simp only at h
        cases hs2 : slotsLoop b resolve out dg rest (i + 1) ms' s' with
        | none => rw [hs2] at h; cases h
        | some q =>
          obtain ⟨ms'', s'', f'⟩ := q
          rw [hs2] at h
          simp only [Option.some.injEq, Prod.mk.injEq] at h
          obtain ⟨h1, h2, h3⟩ := h
          rw [Bool.or_eq_false_iff] at h3
          obtain ⟨hf1, hf2⟩ := h3
          rw [hf1] at hs
          rw [hf2] at hs2
          obtain ⟨hse, hchar₁⟩ := slotStep_char hres (hmem g (by simp)) hs
          rw [hse] at hs2
          obtain ⟨hse2, hchar₂⟩ :=
            ih (fun g' hg' e he => hmem g' (by simp [hg']) e he) (by omega) hs2
          refine ⟨by rw [← h2, hse2], ?_⟩
          intro x
          rw [← h1, hchar₂ x, hchar₁ x, if_neg hi]
          constructor
          · rintro ⟨⟨hx1, hx2⟩, hx3⟩
            refine ⟨hx1, ?_⟩
            intro j
            refine Fin.cases ?_ ?_ j
            · intro e he
              simpa using hx2 e he
            · intro j' e he
              have hh := hx3 j' e (by simpa using he)
              simpa [Nat.add_assoc, Nat.add_comm 1 j'.1] using hh
          · rintro ⟨hx1, hx2⟩
            refine ⟨⟨hx1, ?_⟩, ?_⟩
            · intro e he
              simpa using hx2 ⟨0, by simp⟩ e (by simpa using he)
            · intro j' e he
              have hh := hx2 j'.succ e (by simpa using he)
              simpa [Nat.add_assoc, Nat.add_comm 1 j'.1] using hh
    · rw [if_neg hg] at h
      have hms : ms = [] := by
        by_cases hmm : ms = []
        · exact hmm
        · exact absurd (Or.inr hmm) hg
      subst hms
      obtain ⟨hse, hchar⟩ :=
        ih (fun g' hg' e he => hmem g' (by simp [hg']) e he) (by omega) h
      refine ⟨hse, ?_⟩
      intro x
      rw [hchar x]
      simp

theorem slotsLoop_top_char {b : Backend}
    {resolve : CacheKey → CMState → Option (Ident × CMState)} {out : Nat} {dg : String}
    (hres : ∀ (ck : CacheKey) (s'' : CMState) (v : Ident),
      s''.ids.lookup ck.tag = some v → resolve ck s'' = some (v, s''))
    {g : List (CacheKey × String)} {rest : List (List (CacheKey × String))}
    {msOut : List Ident} {s sOut : CMState}
    (hmem : ∀ g' ∈ g :: rest, ∀ e ∈ g', (s.ids.lookup e.1.tag).isSome = true)
    (h : slotsLoop b resolve out dg (g :: rest) 0 [] s = some (msOut, sOut, false)) :
    sOut = s ∧
    ∀ x, x ∈ msOut ↔
      ((∃ e ∈ g, x ∈ linkTargets b ((s.ids.lookup e.1.tag).getD "") ⟨0, out, dg, e.2⟩) ∧
        ∀ (j : Fin rest.length), ∀ e ∈ rest.get j,
          x ∈ linkTargets b ((s.ids.lookup e.1.tag).getD "") ⟨1 + j.1, out, dg, e.2⟩) := by
  simp only [slotsLoop] at h
  rw [if_pos (Or.inl trivial)] at h
  cases hs : slotStep b resolve 0 out dg g [] s with
  | none => rw [hs] at h; cases h
  | some p =>
    obtain ⟨ms', s', f⟩ := p
    rw [hs] at h
    simp only at h
    cases hs2 : slotsLoop b resolve out dg rest (0 + 1) ms' s' with
    | none => rw [hs2] at h; cases h
    | some q =>
      obtain ⟨ms'', s'', f'⟩ := q
      rw [hs2] at h
      simp only [Option.some.injEq, Prod.mk.injEq] at h
      obtain ⟨h1, h2, h3⟩ := h
      rw [Bool.or_eq_false_iff] at h3
      obtain ⟨hf1, hf2⟩ := h3
      rw [hf1] at hs
      rw [hf2] at hs2
      obtain ⟨hse, hchar₁⟩ := slotStep_char hres (hmem g (by simp)) hs
      rw [hse] at hs2
      obtain ⟨hse2, hchar₂⟩ := slotsLoop_tail_char hres
        (fun g' hg' e he => hmem g' (by simp [hg']) e he) (by omega) hs2
      refine ⟨by rw [← h2, hse2], ?_⟩
      intro x
      rw [← h1, hchar₂ x, hchar₁ x]
      simp only [if_pos rfl, List.not_mem_nil, false_or]
      constructor
      · rintro ⟨hx1, hx2⟩
        exact ⟨hx1, fun j e he => hx2 j e he⟩
      · rintro ⟨hx1, hx2⟩
        exact ⟨hx1, fun j e he => hx2 j e he⟩

/-- C1 (amended): with all parents already resolved and no walk failure,
the candidate set computed by the slot loops of `getIDFromDeps` contains an
identifier iff at least one slot-0 parent links to it and every parent of
every later slot links to it (the source intersects with each later-slot
parent individually, not with the union over the slot's parents); when the
set is non-empty, `getIDFromDeps` returns one of its members. -/
theorem c1_candidate_set_per_parent_intersection (gen : Nat → Ident) (b : Backend)
    (fl : Nat) (k : CacheKey) (s : CMState) (ms : List Ident) (s₂ : CMState)
    (hmem : ∀ g ∈ k.deps, ∀ e ∈ g, (s.ids.lookup e.1.tag).isSome = true)
    (hne : k.deps ≠ [])
    (hrun : slotsLoop b (fun ck s' => getID gen b (fl + 1) ck s') k.output k.digest
      k.deps 0 [] s = some (ms, s₂, false)) :
    s₂ = s ∧ (∀ x, x ∈ ms ↔ codeSurvives b s k x) ∧
    (ms ≠ [] → ∃ y ∈ ms, getIDFromDeps gen b (fl + 1) k s = some (y, s₂, false)) := by
  have hres : ∀ (ck : CacheKey) (s'' : CMState) (v : Ident),
      s''.ids.lookup ck.tag = some v →
      getID gen b (fl + 1) ck s'' = some (v, s'') := by
    intro ck s'' v hv
    exact getID_hit hv
  obtain ⟨g, rest, hd⟩ : ∃ g rest, k.deps = g :: rest := by
    cases hk : k.deps with
    | nil => exact absurd hk hne
    | cons a l => exact ⟨a, l, rfl⟩
  rw [hd] at hrun hmem
  obtain ⟨hse, hchar⟩ := slotsLoop_top_char hres hmem hrun
  refine ⟨hse, ?_, ?_⟩
  · intro x
    rw [hchar x]
    unfold codeSurvives
    rw [hd]
    simp only [List.headD_cons]
    constructor
    · rintro ⟨hx1, hx2⟩
      refine ⟨hx1, ?_⟩
      intro gi hgi e he
      have hlen : gi.1 < rest.length + 1 := by
        have hgl := gi.2
        simp only [List.length_cons] at hgl
        exact hgl
      have hj : gi.1 - 1 < rest.length := by omega
      have hget : (g :: rest).get gi = rest.get ⟨gi.1 - 1, hj⟩ := by
        rcases gi with ⟨gv, hgv⟩
        cases gv with
        | zero => exact absurd rfl hgi
        | succ gv' => simp
      rw [hget] at he
      have hh := hx2 ⟨gi.1 - 1, hj⟩ e he
      rw [show (1 : Nat) + (gi.1 - 1) = gi.1 from by omega] at hh
      exact hh
    · rintro ⟨hx1, hx2⟩
      refine ⟨hx1, ?_⟩
      intro j e he
      have hlt : j.1 + 1 < (g :: rest).length := by
        simp [Nat.succ_lt_succ j.2]
      have hh := hx2 ⟨j.1 + 1, hlt⟩ (by simp) e (by simpa using he)
      rw [show (1 : Nat) + j.1 = j.1 + 1 from by omega]
      exact hh
  · intro hms
    cases hmsc : ms with
    | nil => exact absurd hmsc hms
    | cons y ys =>
      refine ⟨y, by simp [hmsc], ?_⟩
      unfold getIDFromDeps deriveCore
      rw [hd, hrun, hmsc]

/-- C1 fails as stated: at this input, identifier X is reachable from some
parent in every slot (`specSurvives`), so per the claim the candidate set
is non-empty and the returned identifier is one of its members; but slot 1
has a second parent R without a link to X, the source deletes X when
intersecting with R's (empty) walk, and a fresh identifier is minted
instead — one that does not satisfy the claimed characterization. -/
theorem c1_counterexample :
    specSurvives
      ⟨[("p", ⟨0, 0, "D", ""⟩, "X"), ("q", ⟨1, 0, "D", ""⟩, "X")],
        fun _ _ => false, [], fun _ => [], fun _ => none, fun _ _ => none⟩
      ⟨[(1, "p"), (2, "q"), (3, "r")], 0, 0⟩
      (CacheKey.mk 0 "D" 0 "u"
        [[(CacheKey.mk 1 "dp" 0 "p" [], "")],
         [(CacheKey.mk 2 "dq" 0 "q" [], ""), (CacheKey.mk 3 "dr" 0 "r" [], "")]])
      "X" ∧
    getIDFromDeps (fun n => "f" ++ Nat.repr n)
      ⟨[("p", ⟨0, 0, "D", ""⟩, "X"), ("q", ⟨1, 0, "D", ""⟩, "X")],
        fun _ _ => false, [], fun _ => [], fun _ => none, fun _ _ => none⟩
      1
      (CacheKey.mk 0 "D" 0 "u"
        [[(CacheKey.mk 1 "dp" 0 "p" [], "")],
         [(CacheKey.mk 2 "dq" 0 "q" [], ""), (CacheKey.mk 3 "dr" 0 "r" [], "")]])
      ⟨[(1, "p"), (2, "q"), (3, "r")], 0, 0⟩
      = some ("f0", ⟨[(1, "p"), (2, "q"), (3, "r")], 1, 0⟩, false) ∧
    ¬ specSurvives
      ⟨[("p", ⟨0, 0, "D", ""⟩, "X"), ("q", ⟨1, 0, "D", ""⟩, "X")],
        fun _ _ => false, [], fun _ => [], fun _ => none, fun _ _ => none⟩
      ⟨[(1, "p"), (2, "q"), (3, "r")], 0, 0⟩
      (CacheKey.mk 0 "D" 0 "u"
        [[(CacheKey.mk 1 "dp" 0 "p" [], "")],
         [(CacheKey.mk 2 "dq" 0 "q" [], ""), (CacheKey.mk 3 "dr" 0 "r" [], "")]])
      "f0" := by
  refine ⟨by decide, by decide, by decide⟩

theorem c1_candidate_set_witness :
    (slotsLoop
        ⟨[("p", ⟨0, 0, "D", ""⟩, "X"), ("q", ⟨1, 0, "D", ""⟩, "X")],
          fun _ _ => false, [], fun _ => [], fun _ => none, fun _ _ => none⟩
        (fun ck s' => getID (fun n => "f" ++ Nat.repr n)
          ⟨[("p", ⟨0, 0, "D", ""⟩, "X"), ("q", ⟨1, 0, "D", ""⟩, "X")],
            fun _ _ => false, [], fun _ => [], fun _ => none, fun _ _ => none⟩ 1 ck s')
        (CacheKey.mk 0 "D" 0 "u"
          [[(CacheKey.mk 1 "dp" 0 "p" [], "")], [(CacheKey.mk 2 "dq" 0 "q" [], "")]]).output
        (CacheKey.mk 0 "D" 0 "u"
          [[(CacheKey.mk 1 "dp" 0 "p" [], "")], [(CacheKey.mk 2 "dq" 0 "q" [], "")]]).digest
        (CacheKey.mk 0 "D" 0 "u"
          [[(CacheKey.mk 1 "dp" 0 "p" [], "")], [(CacheKey.mk 2 "dq" 0 "q" [], "")]]).deps
        0 [] ⟨[(1, "p"), (2, "q")], 0, 0⟩
      = some (["X"], ⟨[(1, "p"), (2, "q")], 0, 0⟩, false)) ∧
    codeSurvives
      ⟨[("p", ⟨0, 0, "D", ""⟩, "X"), ("q", ⟨1, 0, "D", ""⟩, "X")],
        fun _ _ => false, [], fun _ => [], fun _ => none, fun _ _ => none⟩
      ⟨[(1, "p"), (2, "q")], 0, 0⟩
      (CacheKey.mk 0 "D" 0 "u"
        [[(CacheKey.mk 1 "dp" 0 "p" [], "")], [(CacheKey.mk 2 "dq" 0 "q" [], "")]])
      "X" ∧
    getIDFromDeps (fun n => "f" ++ Nat.repr n)
      ⟨[("p", ⟨0, 0, "D", ""⟩, "X"), ("q", ⟨1, 0, "D", ""⟩, "X")],
        fun _ _ => false, [], fun _ => [], fun _ => none, fun _ _ => none⟩ 1
      (CacheKey.mk 0 "D" 0 "u"
        [[(CacheKey.mk 1 "dp" 0 "p" [], "")], [(CacheKey.mk 2 "dq" 0 "q" [], "")]])
      ⟨[(1, "p"), (2, "q")], 0, 0⟩
      = some ("X", ⟨[(1, "p"), (2, "q")], 0, 0⟩, false) := by
  have h := c1_candidate_set_per_parent_intersection (fun n => "f" ++ Nat.repr n)
    ⟨[("p", ⟨0, 0, "D", ""⟩, "X"), ("q", ⟨1, 0, "D", ""⟩, "X")],
      fun _ _ => false, [], fun _ => [], fun _ => none, fun _ _ => none⟩ 0
    (CacheKey.mk 0 "D" 0 "u"
      [[(CacheKey.mk 1 "dp" 0 "p" [], "")], [(CacheKey.mk 2 "dq" 0 "q" [], "")]])
    ⟨[(1, "p"), (2, "q")], 0, 0⟩ ["X"] ⟨[(1, "p"), (2, "q")], 0, 0⟩
    (by decide) (by simp [CacheKey.deps]) (by decide)
  refine ⟨by decide, (h.2.1 "X").mp (by decide), ?_⟩
  obtain ⟨y, hy, h3⟩ := h.2.2 (by decide)
  have hyx : y = "X" := by simpa using hy
  subst hyx
  exact h3

/-- C3: if a WalkLinks query issued during identifier derivation fails,
`getIDFromDeps` propagates no error: the candidate set collapses to empty
and a freshly minted identifier from the generator is returned — one that
has no links in the store whenever the generator's outputs are unused
there. -/
theorem c3_walk_failure_mints_fresh (gen : Nat → Ident) (b : Backend) (fuel : Nat)
    (k : CacheKey) (s : CMState) (id : Ident) (s' : CMState)
    (hrun : getIDFromDeps gen b fuel k s = some (id, s', true)) :
    (∃ s₁ : CMState,
      slotsLoop b (fun ck s'' => getID gen b fuel ck s'') k.output k.digest k.deps 0 [] s
        = some ([], s₁, true) ∧
      id = gen s₁.ctr ∧ s' = { s₁ with ctr := s₁.ctr + 1 }) ∧
    ((∀ n p l, (p, l, gen n) ∉ b.links) → ∀ p l, (p, l, id) ∉ b.links) := by
  unfold getIDFromDeps deriveCore at hrun
  cases hs : slotsLoop b (fun ck s'' => getID gen b fuel ck s'') k.output k.digest
      k.deps 0 [] s with
  | none => rw [hs] at hrun; cases hrun
  | some p =>
    obtain ⟨ms, s₁, f⟩ := p
    rw [hs] at hrun
    simp only at hrun
    cases hmsc : ms with
    | cons y ys =>
      rw [hmsc] at hrun hs
      simp only [Option.some.injEq, Prod.mk.injEq] at hrun
      rw [hrun.2.2] at hs
      have hnil := slotsLoop_flag_nil hs
      cases hnil
    | nil =>
      rw [hmsc] at hrun hs
      simp only [Option.some.injEq, Prod.mk.injEq] at hrun
      obtain ⟨h1, h2, h3⟩ := hrun
      refine ⟨⟨s₁, by rw [h3], h1.symm, h2.symm⟩, ?_⟩
      intro hfresh p l
      rw [← h1]
      exact hfresh s₁.ctr p l

theorem c3_walk_failure_witness :
    (getIDFromDeps (fun n => "f" ++ Nat.repr n)
        ⟨[], fun _ _ => true, [], fun _ => [], fun _ => none, fun _ _ => none⟩ 1
        (CacheKey.mk 0 "D" 0 "u" [[(CacheKey.mk 1 "dp" 0 "p" [], "")]])
        ⟨[(1, "p")], 0, 0⟩
      = some ("f0", ⟨[(1, "p")], 1, 0⟩, true)) ∧
    ("p", (⟨0, 0, "D", ""⟩ : CacheInfoLink), "f0") ∉
      (⟨[], fun _ _ => true, [], fun _ => [], fun _ => none,
        fun _ _ => none⟩ : Backend).links := by
  have h := c3_walk_failure_mints_fresh (fun n => "f" ++ Nat.repr n)
    ⟨[], fun _ _ => true, [], fun _ => [], fun _ => none, fun _ _ => none⟩ 1
    (CacheKey.mk 0 "D" 0 "u" [[(CacheKey.mk 1 "dp" 0 "p" [], "")]])
    ⟨[(1, "p")], 0, 0⟩ "f0" ⟨[(1, "p")], 1, 0⟩ (by decide)
  exact ⟨by decide, h.2 (by simp) "p" ⟨0, 0, "D", ""⟩⟩

/-! ### Records -/

theorem recordsLoop_spec (resExists : Ident → Bool) (keyTag : Nat) :
    ∀ crs : List CacheResult,
      recordsLoop resExists keyTag crs =
        ((crs.filter (fun cr => resExists cr.id)).map
            (fun cr =>
              ({ id := cr.id, keyTag := keyTag, createdAt := cr.createdAt } : CacheRecord)),
          (crs.filter (fun cr => !resExists cr.id)).map (fun cr => Op.release cr.id)) := by
  intro crs
  induction crs with
  | nil => rfl
  | cons cr rest ih =>
    simp only [recordsLoop, ih]
    by_cases h : resExists cr.id = true
    · simp [List.filter_cons, h]
    · simp only [Bool.not_eq_true] at h
      simp [List.filter_cons, h]

/-- C6: a successful Records call returns exactly those result associations
stored under the key's resolved identifier whose artifact exists in the
result store (in walk order), and releases exactly the associations whose
artifact is absent, omitting them from the returned records. -/
theorem c6_records_self_healing (gen : Nat → Ident) (b : Backend)
    (resExists : Ident → Bool) (fuel : Nat) (ck : CacheKey) (s : CMState)
    (id : Ident) (s₁ : CMState) (recs : List CacheRecord) (sOut : CMState) (ops : List Op)
    (hid : getID gen b fuel ck s = some (id, s₁))
    (hrun : records gen b resExists fuel ck s = some (some recs, sOut, ops)) :
    sOut = s₁ ∧
    recs = ((b.results id).filter (fun cr => resExists cr.id)).map
      (fun cr => { id := cr.id, keyTag := ck.tag, createdAt := cr.createdAt }) ∧
    ops = ((b.results id).filter (fun cr => !resExists cr.id)).map
      (fun cr => Op.release cr.id) := by
  unfold records at hrun
  rw [hid] at hrun
  simp only at hrun
  cases hw : b.walkResultsFail id with
  | some n =>
    rw [hw] at hrun
    simp at hrun
  | none =>
    rw [hw] at hrun
    simp only at hrun
    rw [recordsLoop_spec] at hrun
    simp only [Option.some.injEq, Prod.mk.injEq] at hrun
    exact ⟨hrun.2.1.symm, hrun.1.symm, hrun.2.2.symm⟩

theorem c6_records_witness :
    (getID Nat.repr
        ⟨[], fun _ _ => false, [],
          fun i => if i = "k" then [⟨"r1", 5⟩, ⟨"r2", 6⟩] else [],
          fun _ => none, fun _ _ => none⟩ 1
        (CacheKey.mk 0 "D" 0 "k" []) ⟨[(0, "k")], 0, 0⟩
      = some ("k", ⟨[(0, "k")], 0, 0⟩)) ∧
    (records Nat.repr
        ⟨[], fun _ _ => false, [],
          fun i => if i = "k" then [⟨"r1", 5⟩, ⟨"r2", 6⟩] else [],
          fun _ => none, fun _ _ => none⟩
        (fun r => r = "r1") 1 (CacheKey.mk 0 "D" 0 "k" []) ⟨[(0, "k")], 0, 0⟩
      = some (some [{ id := "r1", keyTag := 0, createdAt := 5 }],
          ⟨[(0, "k")], 0, 0⟩, [Op.release "r2"])) ∧
    [({ id := "r1", keyTag := 0, createdAt := 5 } : CacheRecord)]
      = (([⟨"r1", 5⟩, ⟨"r2", 6⟩] : List CacheResult).filter
          (fun cr => decide (cr.id = "r1"))).map
        (fun cr => { id := cr.id, keyTag := 0, createdAt := cr.createdAt }) ∧
    [Op.release "r2"]
      = (([⟨"r1", 5⟩, ⟨"r2", 6⟩] : List CacheResult).filter
          (fun cr => !decide (cr.id = "r1"))).map (fun cr => Op.release cr.id) := by
  have h := c6_records_self_healing Nat.repr
    ⟨[], fun _ _ => false, [],
      fun i => if i = "k" then [⟨"r1", 5⟩, ⟨"r2", 6⟩] else [],
      fun _ => none, fun _ _ => none⟩
    (fun r => decide (r = "r1")) 1 (CacheKey.mk 0 "D" 0 "k" []) ⟨[(0, "k")], 0, 0⟩
    "k" ⟨[(0, "k")], 0, 0⟩ [{ id := "r1", keyTag := 0, createdAt := 5 }]
    ⟨[(0, "k")], 0, 0⟩ [Op.release "r2"] (by decide) (by decide)
  exact ⟨by decide, by decide, by decide, by decide⟩

/-! ### Query: root-key special case -/

/-- C7: a Query with an empty deps list returns exactly one CacheKey
wrapping the deterministic root identifier when that identifier exists in
the store, and an empty result with no error when it does not; in the
absent case the state is untouched (no identifier is minted) and the
backend is unchanged with no write operation issued. -/
theorem c7_query_root (gen : Nat → Ident) (b : Backend) (fuel input : Nat)
    (dgst : String) (output : Nat) (s : CMState) :
    (rootKey dgst output ∈ b.exs →
      ∃ k s₃, query gen b fuel [] input dgst output s = some ([k], b, s₃, []) ∧
        k.ID = rootKey dgst output ∧ k.deps = []) ∧
    (rootKey dgst output ∉ b.exs →
      query gen b fuel [] input dgst output s = some ([], b, s, [])) := by
  constructor
  · intro h
    refine ⟨(newKeyWithID (rootKey dgst output) dgst output s).1,
      (newKeyWithID (rootKey dgst output) dgst output s).2, ?_, rfl, rfl⟩
    unfold query queryWalkDeps crossLinkAll
    simp only [List.isEmpty_nil, if_true]
    rw [if_pos h]
    rfl
  · intro h
    unfold query queryWalkDeps crossLinkAll
    simp only [List.isEmpty_nil, if_true]
    rw [if_neg h]

theorem c7_queryRoot_witness :
    (rootKey "sha256:d" 0 ∈
        (⟨[], fun _ _ => false, [rootKey "sha256:d" 0], fun _ => [], fun _ => none,
          fun _ _ => none⟩ : Backend).exs ∧
      ∃ k s₃, query Nat.repr
          ⟨[], fun _ _ => false, [rootKey "sha256:d" 0], fun _ => [], fun _ => none,
            fun _ _ => none⟩ 1 [] 0 "sha256:d" 0 ⟨[], 0, 0⟩
        = some ([k], ⟨[], fun _ _ => false, [rootKey "sha256:d" 0], fun _ => [],
            fun _ => none, fun _ _ => none⟩, s₃, []) ∧
        k.ID = rootKey "sha256:d" 0 ∧ k.deps = []) ∧
    (rootKey "sha256:d" 0 ∉
        (⟨[], fun _ _ => false, [], fun _ => [], fun _ => none,
          fun _ _ => none⟩ : Backend).exs ∧
      query Nat.repr
          ⟨[], fun _ _ => false, [], fun _ => [], fun _ => none, fun _ _ => none⟩
          1 [] 0 "sha256:d" 0 ⟨[], 0, 0⟩
        = some ([], ⟨[], fun _ _ => false, [], fun _ => [], fun _ => none,
            fun _ _ => none⟩, ⟨[], 0, 0⟩, [])) := by
  constructor
  · exact ⟨by decide,
      (c7_query_root Nat.repr
        ⟨[], fun _ _ => false, [rootKey "sha256:d" 0], fun _ => [], fun _ => none,
          fun _ _ => none⟩ 1 0 "sha256:d" 0 ⟨[], 0, 0⟩).1 (by decide)⟩
  · exact ⟨by decide,
      (c7_query_root Nat.repr
        ⟨[], fun _ _ => false, [], fun _ => [], fun _ => none, fun _ _ => none⟩
        1 0 "sha256:d" 0 ⟨[], 0, 0⟩).2 (by decide)⟩

/-! ### Query: cross-linking -/

theorem linkTargets_mem {b : Backend} {p : Ident} {l : CacheInfoLink} {x : Ident} :
    x ∈ linkTargets b p l ↔ (p, l, x) ∈ b.links := by
  unfold linkTargets
  rw [List.mem_filterMap]
  constructor
  · rintro ⟨⟨a, bl, c⟩, he, hx⟩
    by_cases hc : ((a, bl, c).1, (a, bl, c).2.1) = (p, l)
    · rw [if_pos hc] at hx
      simp only [Prod.mk.injEq] at hc
      obtain ⟨rfl, rfl⟩ := hc
      obtain rfl : c = x := Option.some.inj hx
      exact he
    · rw [if_neg hc] at hx
      cases hx
  · intro he
    exact ⟨(p, l, x), he, by simp⟩

theorem accEntryOK_mono {s s' : CMState} {p : Ident × CacheKey}
    (h : AccEntryOK s p) (htc : s.tagCtr ≤ s'.tagCtr)
    (hst : ∀ t, t < s.tagCtr → s'.ids.lookup t = s.ids.lookup t) :
    AccEntryOK s' p := by
  obtain ⟨h1, h2, h3, h4⟩ := h
  exact ⟨h1, h2, by omega, by rw [hst p.2.tag h3]; exact h4⟩

theorem addNewKeys_spec (dgst : String) (output : Nat) :
    ∀ (ts : List Ident) (acc : List (Ident × CacheKey)) (s : CMState),
      TagsBounded s →
      (∀ p ∈ acc, AccEntryOK s p) →
      TagsBounded (addNewKeys dgst output ts acc s).2 ∧
      s.tagCtr ≤ (addNewKeys dgst output ts acc s).2.tagCtr ∧
      (∀ t, t < s.tagCtr →
        (addNewKeys dgst output ts acc s).2.ids.lookup t = s.ids.lookup t) ∧
      (∀ p ∈ (addNewKeys dgst output ts acc s).1,
        AccEntryOK (addNewKeys dgst output ts acc s).2 p) := by
  intro ts
  induction ts with
  | nil =>
    intro acc s hb hacc
    exact ⟨hb, le_refl _, fun t ht => rfl, hacc⟩
  | cons x ts ih =>
    intro acc s hb hacc
    simp only [addNewKeys]
    by_cases hx : (acc.lookup x).isSome = true
    · rw [if_pos hx]
      exact ih acc s hb hacc
    · rw [if_neg hx]
      simp only [newKeyWithID]
      set s' : CMState :=
        { s with tagCtr := s.tagCtr + 1, ids := (s.tagCtr, x) :: s.ids } with hs'
      have hb' : TagsBounded s' := by
        intro tv htv
        simp only [hs', List.mem_cons] at htv
        rcases htv with rfl | htv
        · simp [hs']
        · have := hb tv htv
          simp only [hs']
          omega
      have hst' : ∀ t, t < s.tagCtr → s'.ids.lookup t = s.ids.lookup t := by
        intro t ht
        have hb2 : (t == s.tagCtr) = false := by
          simp only [beq_eq_false_iff_ne, ne_eq]
          omega
        simp [hs', List.lookup, hb2]
      have hacc' : ∀ p ∈ acc ++ [(x, CacheKey.mk s.tagCtr dgst output x [])],
          AccEntryOK s' p := by
        intro p hp
        rcases List.mem_append.mp hp with hp | hp
        · exact accEntryOK_mono (hacc p hp) (by simp [hs']) hst'
        · obtain rfl : p = (x, CacheKey.mk s.tagCtr dgst output x []) := by simpa using hp
          refine ⟨rfl, rfl, by simp [hs', CacheKey.tag], ?_⟩
          simp [hs', CacheKey.tag, List.lookup]
      obtain ⟨r1, r2, r3, r4⟩ := ih (acc ++ [(x, CacheKey.mk s.tagCtr dgst output x [])]) s' hb' hacc'
      refine ⟨r1, by simp only [hs'] at r2 ⊢; omega, ?_, r4⟩
      intro t ht
      rw [r3 t (by simp only [hs']; omega), hst' t ht]

theorem queryWalkDeps_spec (gen : Nat → Ident) (b : Backend) (fl input output : Nat)
    (dgst : String) :
    ∀ (deps : List (CacheKey × String)) (acc : List (Ident × CacheKey)) (s : CMState)
      (qdeps : List QDep) (allRes : List (Ident × CacheKey)) (s₁ : CMState),
      TagsBounded s →
      (∀ e ∈ deps, (s.ids.lookup e.1.tag).isSome = true ∧ e.1.tag < s.tagCtr) →
      (∀ p ∈ acc, AccEntryOK s p) →
      queryWalkDeps gen b (fl + 1) input output dgst deps acc s = some (qdeps, allRes, s₁) →
      TagsBounded s₁ ∧ s.tagCtr ≤ s₁.tagCtr ∧
      (∀ t, t < s.tagCtr → s₁.ids.lookup t = s.ids.lookup t) ∧
      (∀ p ∈ allRes, AccEntryOK s₁ p) ∧
      (∀ d ∈ qdeps, ∃ e ∈ deps, ∃ pid, s.ids.lookup e.1.tag = some pid ∧
        d.key = e.1 ∧ d.selector = e.2 ∧
        d.results = linkTargets b pid ⟨input, output, dgst, e.2⟩) ∧
      (∀ e ∈ deps, ∃ pid, s.ids.lookup e.1.tag = some pid ∧
        (⟨e.1, e.2, linkTargets b pid ⟨input, output, dgst, e.2⟩⟩ : QDep) ∈ qdeps) := by
  intro deps
  induction deps with
  | nil =>
    intro acc s qdeps allRes s₁ hb hmem hacc h
    simp only [queryWalkDeps, Option.some.injEq, Prod.mk.injEq] at h
    obtain ⟨h1, h2, h3⟩ := h
    subst h1
    subst h3
    refine ⟨hb, le_refl _, fun t ht => rfl, ?_, by simp, by simp⟩
    rw [← h2]
    exact hacc
  | cons e rest ih =>
    intro acc s qdeps allRes s₁ hb hmem hacc h
    obtain ⟨ck, sel⟩ := e
    obtain ⟨hsome, htag⟩ := hmem (ck, sel) (by simp)
    obtain ⟨pid, hpid⟩ : ∃ pid, s.ids.lookup ck.tag = some pid := by
      cases hvv : s.ids.lookup ck.tag with
      | none => rw [hvv] at hsome; cases hsome
      | some v => exact ⟨v, rfl⟩
    simp only [queryWalkDeps] at h
    rw [getID_hit hpid] at h
    simp only at h
    by_cases hw : b.walkLinksFail pid ⟨input, output, dgst, sel⟩ = true
    · rw [if_pos hw] at h
      cases h
    · rw [if_neg hw] at h
      obtain ⟨q1, q2, q3, q4⟩ := addNewKeys_spec dgst output
        (linkTargets b pid ⟨input, output, dgst, sel⟩) acc s hb hacc
      cases hanks : addNewKeys dgst output (linkTargets b pid ⟨input, output, dgst, sel⟩)
          acc s with
      | mk acc₁ s₂ =>
        rw [hanks] at h
        rw [hanks] at q1 q2 q3 q4
        simp only at h q1 q2 q3 q4
        cases hrec : queryWalkDeps gen b (fl + 1) input output dgst rest acc₁ s₂ with
        | none => rw [hrec] at h; cases h
        | some r =>
          obtain ⟨qdeps', allRes', s₃⟩ := r
          rw [hrec] at h
          simp only [Option.some.injEq, Prod.mk.injEq] at h
          obtain ⟨h1, h2, h3⟩ := h
          have hmem' : ∀ e ∈ rest, (s₂.ids.lookup e.1.tag).isSome = true ∧
              e.1.tag < s₂.tagCtr := by
            intro e he
            obtain ⟨h4, h5⟩ := hmem e (by simp [he])
            refine ⟨?_, by omega⟩
            rw [q3 e.1.tag h5]
            exact h4
          obtain ⟨r1, r2, r3, r4, r5, r6⟩ := ih acc₁ s₂ qdeps' allRes' s₃ q1 hmem' q4 hrec
          have hst : ∀ t, t < s.tagCtr → s₃.ids.lookup t = s.ids.lookup t := by
            intro t ht
            rw [r3 t (by omega), q3 t ht]
          refine ⟨by rw [← h3]; exact r1, by rw [← h3]; omega, ?_, ?_, ?_, ?_⟩
          · intro t ht
            rw [← h3]
            exact hst t ht
          · intro p hp
            rw [← h2] at hp
            rw [← h3]
            exact r4 p hp
          · intro d hd
            rw [← h1] at hd
            rcases List.mem_cons.mp hd with rfl | hd
            · exact ⟨(ck, sel), by simp, pid, hpid, rfl, rfl, rfl⟩
            · obtain ⟨e, he, pd, hpd, hh⟩ := r5 d hd
              refine ⟨e, by simp [he], pd, ?_, hh⟩
              obtain ⟨_, h5⟩ := hmem e (by simp [he])
              rw [← q3 e.1.tag h5]
              exact hpd
          · intro e he
            rcases List.mem_cons.mp he with rfl | he
            · exact ⟨pid, hpid, by rw [← h1]; simp⟩
            · obtain ⟨pd, hpd, hmem2⟩ := r6 e he
              obtain ⟨_, h5⟩ := hmem e (by simp [he])
              refine ⟨pd, ?_, by rw [← h1]; simp [hmem2]⟩
              rw [← q3 e.1.tag h5]
              exact hpd

theorem crossLinkDep_spec (gen : Nat → Ident) (fl input output : Nat) (dgst : String)
    (id : Ident) (key : CacheKey) :
    ∀ (qdeps : List QDep) (b : Backend) (s : CMState) (b' : Backend) (s' : CMState)
      (t : List Op),
      (∀ d ∈ qdeps, (s.ids.lookup d.key.tag).isSome = true) →
      s.ids.lookup key.tag = some id →
      crossLinkDep gen (fl + 1) input output dgst id key qdeps b s = some (b', s', t) →
      s' = s ∧ b.links ⊆ b'.links ∧
      ∀ d ∈ qdeps, id ∉ d.results → ∃ pid, s.ids.lookup d.key.tag = some pid ∧
        (pid, (⟨input, output, dgst, d.selector⟩ : CacheInfoLink), id) ∈ b'.links := by
  intro qdeps
  induction qdeps with
  | nil =>
    intro b s b' s' t hmem hkey h
    simp only [crossLinkDep, Option.some.injEq, Prod.mk.injEq] at h
    exact ⟨h.2.1.symm, by rw [← h.1]; exact List.Subset.refl _, by simp⟩
  | cons d rest ih =>
    intro b s b' s' t hmem hkey h
    simp only [crossLinkDep] at h
    by_cases hd : id ∈ d.results
    · simp only [if_pos hd] at h
      obtain ⟨r1, r2, r3⟩ := ih b s b' s' t (fun d' hd' => hmem d' (by simp [hd'])) hkey h
      refine ⟨r1, r2, ?_⟩
      intro d' hd' hnot
      rcases List.mem_cons.mp hd' with rfl | hd'
      · exact absurd hd hnot
      · exact r3 d' hd' hnot
    · simp only [if_neg hd] at h
      obtain ⟨pd, hpd⟩ : ∃ pd, s.ids.lookup d.key.tag = some pd := by
        have := hmem d (by simp)
        cases hvv : s.ids.lookup d.key.tag with
        | none => rw [hvv] at this; cases this
        | some v => exact ⟨v, rfl⟩
      rw [getID_hit hpd] at h
      simp only at h
      rw [getID_hit hkey] at h
      simp only at h
      cases hrec : crossLinkDep gen (fl + 1) input output dgst id key rest
          (b.addLink pd ⟨input, output, dgst, d.selector⟩ id) s with
      | none => rw [hrec] at h; cases h
      | some r =>
        obtain ⟨b₂, s₃, t₂⟩ := r
        rw [hrec] at h
        simp only [Option.some.injEq, Prod.mk.injEq] at h
        obtain ⟨h1, h2, h3⟩ := h
        obtain ⟨r1, r2, r3⟩ := ih _ s b₂ s₃ t₂ (fun d' hd' => hmem d' (by simp [hd'])) hkey hrec
        have hadd : (pd, (⟨input, output, dgst, d.selector⟩ : CacheInfoLink), id) ∈ b₂.links := by
          apply r2
          simp [Backend.addLink]
        refine ⟨by rw [← h2]; exact r1, ?_, ?_⟩
        · intro e he
          rw [← h1]
          apply r2
          simp [Backend.addLink, he]
        · intro d' hd' hnot
          rcases List.mem_cons.mp hd' with rfl | hd'
          · exact ⟨pd, hpd, by rw [← h1]; exact hadd⟩
          · obtain ⟨pd', hpd', hmem'⟩ := r3 d' hd' hnot
            exact ⟨pd', hpd', by rw [← h1]; exact hmem'⟩

theorem crossLinkAll_spec (gen : Nat → Ident) (fl input output : Nat) (dgst : String) :
    ∀ (allRes : List (Ident × CacheKey)) (qdeps : List QDep) (b : Backend) (s : CMState)
      (b' : Backend) (s' : CMState) (t : List Op),
      (∀ d ∈ qdeps, (s.ids.lookup d.key.tag).isSome = true) →
      (∀ p ∈ allRes, s.ids.lookup p.2.tag = some p.1) →
      crossLinkAll gen (fl + 1) input output dgst allRes qdeps b s = some (b', s', t) →
      s' = s ∧ b.links ⊆ b'.links ∧
      ∀ p ∈ allRes, ∀ d ∈ qdeps, p.1 ∉ d.results →
        ∃ pid, s.ids.lookup d.key.tag = some pid ∧
          (pid, (⟨input, output, dgst, d.selector⟩ : CacheInfoLink), p.1) ∈ b'.links := by
  intro allRes
  induction allRes with
  | nil =>
    intro qdeps b s b' s' t hmem hacc h
    simp only [crossLinkAll, Option.some.injEq, Prod.mk.injEq] at h
    exact ⟨h.2.1.symm, by rw [← h.1]; exact List.Subset.refl _, by simp⟩
  | cons p rest ih =>
    intro qdeps b s b' s' t hmem hacc h
    obtain ⟨x, k'⟩ := p
    simp only [crossLinkAll] at h
    cases hcd : crossLinkDep gen (fl + 1) input output dgst x k' qdeps b s with
    | none => rw [hcd] at h; cases h
    | some r =>
      obtain ⟨b₁, s₁, t₁⟩ := r
      rw [hcd] at h
      simp only at h
      obtain ⟨c1, c2, c3⟩ := crossLinkDep_spec gen fl input output dgst x k' qdeps b s b₁ s₁
        t₁ hmem (hacc (x, k') (by simp)) hcd
      rw [c1] at h
      cases hrec : crossLinkAll gen (fl + 1) input output dgst rest qdeps b₁ s with
      | none => rw [hrec] at h; cases h
      | some r₂ =>
        obtain ⟨b₂, s₂, t₂⟩ := r₂
        rw [hrec] at h
        simp only [Option.some.injEq, Prod.mk.injEq] at h
        obtain ⟨h1, h2, h3⟩ := h
        obtain ⟨r1, r2, r3⟩ := ih qdeps b₁ s b₂ s₂ t₂ hmem
          (fun p' hp' => hacc p' (by simp [hp'])) hrec
        refine ⟨by rw [← h2]; exact r1, ?_, ?_⟩
        · intro e he
          rw [← h1]
          exact r2 (c2 he)
        · intro p' hp' d hd hnot
          rcases List.mem_cons.mp hp' with rfl | hp'
          · obtain ⟨pid, hpid, hmem'⟩ := c3 d hd hnot
            exact ⟨pid, hpid, by rw [← h1]; exact r2 hmem'⟩
          · obtain ⟨pid, hpid, hmem'⟩ := r3 p' hp' d hd hnot
            exact ⟨pid, hpid, by rw [← h1]; exact hmem'⟩

/-- C5: after a successful Query with a non-empty deps list, every
discovered identifier is linked from every dependency under the label
(input, output, digest, that dependency's selector): for each returned key
and each dependency, the resulting backend holds the link from the
dependency's resolved identifier to the key's identifier — pre-existing
links are preserved and the missing ones were added before returning. -/
theorem c5_query_eager_cross_link (gen : Nat → Ident) (b : Backend) (fl input : Nat)
    (dgst : String) (output : Nat) (deps : List (CacheKey × String)) (s : CMState)
    (keys : List CacheKey) (b₁ : Backend) (s₂ : CMState) (ops : List Op)
    (hdeps : deps ≠ [])
    (hb : TagsBounded s)
    (hmem : ∀ e ∈ deps, (s.ids.lookup e.1.tag).isSome = true ∧ e.1.tag < s.tagCtr)
    (hrun : query gen b (fl + 1) deps input dgst output s = some (keys, b₁, s₂, ops)) :
    b.links ⊆ b₁.links ∧
    ∀ k ∈ keys, ∀ e ∈ deps, ∃ pid, s.ids.lookup e.1.tag = some pid ∧
      (pid, (⟨input, output, dgst, e.2⟩ : CacheInfoLink), k.ID) ∈ b₁.links := by
  unfold query at hrun
  cases hq : queryWalkDeps gen b (fl + 1) input output dgst deps [] s with
  | none => rw [hq] at hrun; cases hrun
  | some r =>
    obtain ⟨qdeps, allRes, s₁⟩ := r
    rw [hq] at hrun
    simp only at hrun
    cases hc : crossLinkAll gen (fl + 1) input output dgst allRes qdeps b s₁ with
    | none => rw [hc] at hrun; cases hrun
    | some r₂ =>
      obtain ⟨b₁', s₂', ops'⟩ := r₂
      rw [hc] at hrun
      simp only at hrun
      have hney : deps.isEmpty = false := by
        cases deps with
        | nil => exact absurd rfl hdeps
        | cons a l => rfl
      rw [if_neg (by simp [hney])] at hrun
      simp only [Option.some.injEq, Prod.mk.injEq] at hrun
      obtain ⟨hk, hb₁, hs₂, hops⟩ := hrun
      obtain ⟨q1, q2, q3, q4, q5, q6⟩ := queryWalkDeps_spec gen b fl input output dgst deps
        [] s qdeps allRes s₁ hb hmem (by simp) hq
      have hqmem : ∀ d ∈ qdeps, (s₁.ids.lookup d.key.tag).isSome = true := by
        intro d hd
        obtain ⟨e, he, pid, hpid, hdk, _, _⟩ := q5 d hd
        rw [hdk, q3 e.1.tag (hmem e he).2, hpid]
        rfl
      have hallres : ∀ p ∈ allRes, s₁.ids.lookup p.2.tag = some p.1 :=
        fun p hp => (q4 p hp).2.2.2
      obtain ⟨c1, c2, c3⟩ := crossLinkAll_spec gen fl input output dgst allRes qdeps b s₁
        b₁' s₂' ops' hqmem hallres hc
      constructor
      · rw [← hb₁]
        exact c2
      · intro k hk' e he
        rw [← hk] at hk'
        obtain ⟨p, hp, hpk⟩ := List.mem_map.mp hk'
        obtain ⟨pid, hpid, hqd⟩ := q6 e he
        by_cases hres : p.1 ∈ linkTargets b pid ⟨input, output, dgst, e.2⟩
        · refine ⟨pid, hpid, ?_⟩
          rw [← hb₁, ← hpk, (q4 p hp).1]
          exact c2 (linkTargets_mem.mp hres)
        · obtain ⟨pid', hpid', hlink⟩ :=
            c3 p hp ⟨e.1, e.2, linkTargets b pid ⟨input, output, dgst, e.2⟩⟩ hqd hres
          rw [q3 e.1.tag (hmem e he).2, hpid] at hpid'
          obtain rfl := Option.some.inj hpid'
          refine ⟨pid, hpid, ?_⟩
          rw [← hb₁, ← hpk, (q4 p hp).1]
          exact hlink

theorem c5_query_eager_cross_link_witness :
    (query (fun n => "f" ++ Nat.repr n)
        ⟨[("p", ⟨0, 0, "D", ""⟩, "X")], fun _ _ => false, [], fun _ => [], fun _ => none,
          fun _ _ => none⟩ 1
        [(CacheKey.mk 1 "dp" 0 "p" [], ""), (CacheKey.mk 2 "dq" 0 "q" [], "")]
        0 "D" 0 ⟨[(1, "p"), (2, "q")], 0, 5⟩
      = some ([CacheKey.mk 5 "D" 0 "X" []],
          ⟨[("p", ⟨0, 0, "D", ""⟩, "X"), ("q", ⟨0, 0, "D", ""⟩, "X")], fun _ _ => false, [],
            fun _ => [], fun _ => none, fun _ _ => none⟩,
          ⟨[(5, "X"), (1, "p"), (2, "q")], 0, 6⟩,
          [Op.addLink "q" ⟨0, 0, "D", ""⟩ "X"])) ∧
    ("p", (⟨0, 0, "D", ""⟩ : CacheInfoLink), "X") ∈
      ([("p", ⟨0, 0, "D", ""⟩, "X"), ("q", ⟨0, 0, "D", ""⟩, "X")] :
        List (Ident × CacheInfoLink × Ident)) ∧
    ("q", (⟨0, 0, "D", ""⟩ : CacheInfoLink), "X") ∈
      ([("p", ⟨0, 0, "D", ""⟩, "X"), ("q", ⟨0, 0, "D", ""⟩, "X")] :
        List (Ident × CacheInfoLink × Ident)) := by
  have h := c5_query_eager_cross_link (fun n => "f" ++ Nat.repr n)
    ⟨[("p", ⟨0, 0, "D", ""⟩, "X")], fun _ _ => false, [], fun _ => [], fun _ => none,
      fun _ _ => none⟩ 0 0 "D" 0
    [(CacheKey.mk 1 "dp" 0 "p" [], ""), (CacheKey.mk 2 "dq" 0 "q" [], "")]
    ⟨[(1, "p"), (2, "q")], 0, 5⟩
    [CacheKey.mk 5 "D" 0 "X" []]
    ⟨[("p", ⟨0, 0, "D", ""⟩, "X"), ("q", ⟨0, 0, "D", ""⟩, "X")], fun _ _ => false, [],
      fun _ => [], fun _ => none, fun _ _ => none⟩
    ⟨[(5, "X"), (1, "p"), (2, "q")], 0, 6⟩
    [Op.addLink "q" ⟨0, 0, "D", ""⟩ "X"]
    (by simp) (by decide) (by decide) rfl
  refine ⟨rfl, ?_, ?_⟩
  · obtain ⟨pid, hpid, hlink⟩ := h.2 (CacheKey.mk 5 "D" 0 "X" []) (by simp)
      (CacheKey.mk 1 "dp" 0 "p" [], "") (by simp)
    have hp2 : List.lookup ((CacheKey.mk 1 "dp" 0 "p" []).tag)
        (⟨[(1, "p"), (2, "q")], 0, 5⟩ : CMState).ids = some "p" := by decide
    rw [hp2] at hpid
    obtain rfl := Option.some.inj hpid
    exact hlink
  · obtain ⟨pid, hpid, hlink⟩ := h.2 (CacheKey.mk 5 "D" 0 "X" []) (by simp)
      (CacheKey.mk 2 "dq" 0 "q" [], "") (by simp)
    have hp2 : List.lookup ((CacheKey.mk 2 "dq" 0 "q" []).tag)
        (⟨[(1, "p"), (2, "q")], 0, 5⟩ : CMState).ids = some "q" := by decide
    rw [hp2] at hpid
    obtain rfl := Option.some.inj hpid
    exact hlink

/-! ### LoadWithParents / filterResults error handling -/

/-- C2 fails on the code: with a `WalkResults` failure partway through the
traversal (after one association was delivered and matched), the
accumulated artifact handle H is released — yet the released handle is
still returned in the result list, and the returned error is nil. The
walk's error is captured by a variable that shadows the named return value
in `filterResults`, so it never propagates, and `LoadWithParents` returns
the results with a nil error instead of releasing everything exactly once
and returning the error. -/
theorem c2_release_escapes_on_walk_failure :
    ((⟨[], fun _ _ => false, [],
        fun i => if i = "k" then [⟨"r1", 5⟩, ⟨"r2", 6⟩] else [],
        fun i => if i = "k" then some 1 else none,
        fun i r => if i = "k" ∧ r = "r1" then some ⟨"r1", 5⟩ else none⟩ :
        Backend).walkResultsFail "k" = some 1) ∧
    loadWithParents Nat.repr
      ⟨[], fun _ _ => false, [],
        fun i => if i = "k" then [⟨"r1", 5⟩, ⟨"r2", 6⟩] else [],
        fun i => if i = "k" then some 1 else none,
        fun i r => if i = "k" ∧ r = "r1" then some ⟨"r1", 5⟩ else none⟩
      (fun _ => some [("k", "H")]) 1 (CacheKey.mk 0 "D" 0 "k" []) "r1"
      ⟨[(0, "k")], 0, 0⟩
      = some ([⟨"H", 0, ⟨"r1", 5⟩⟩], ⟨[(0, "k")], 0, 0⟩, [Op.release "H"], none) ∧
    Op.release "H" ∈ [Op.release "H"] ∧
    "H" ∈ ([⟨"H", 0, ⟨"r1", 5⟩⟩] : List LRes).map (fun r => r.handle) := by
  refine ⟨by decide, by decide, by decide, by decide⟩

/-! ### ensurePersistentKey -/

theorem hasLink_iff {b : Backend} {p : Ident} {l : CacheInfoLink} {t : Ident} :
    b.hasLink p l t = true ↔ (p, l, t) ∈ b.links := by
  simp [Backend.hasLink]

theorem epkDeps_all_present
    {ensure : CacheKey → Backend → CMState → Option (Backend × CMState × List Op)}
    {resolve : Backend → CacheKey → CMState → Option (Ident × CMState)}
    (hres : ∀ (b' : Backend) (ck : CacheKey) (s'' : CMState) (v : Ident),
      s''.ids.lookup ck.tag = some v → resolve b' ck s'' = some (v, s''))
    {id : Ident} {out : Nat} {dg : String} {i : Nat} :
    ∀ (entries : List (CacheKey × String)) (b : Backend) (s : CMState),
      (∀ e ∈ entries, ∃ pid, s.ids.lookup e.1.tag = some pid ∧
        b.hasLink pid ⟨i, out, dg, e.2⟩ id = true) →
      ∃ t, epkDeps ensure resolve id out dg i entries b s = some (b, s, t) ∧
        ∀ op ∈ t, op.isAddLink = false := by
  intro entries
  induction entries with
  | nil =>
    intro b s hp
    exact ⟨[], rfl, by simp⟩
  | cons e rest ih =>
    intro b s hp
    obtain ⟨ck, sel⟩ := e
    obtain ⟨pid, hpid, hl⟩ := hp (ck, sel) (by simp)
    obtain ⟨t, ht, hno⟩ := ih b s (fun e' he' => hp e' (by simp [he']))
    refine ⟨Op.hasLink pid ⟨i, out, dg, sel⟩ id :: t, ?_, ?_⟩
    · simp only [epkDeps]
      rw [hres b ck s pid hpid]
      simp only
      rw [if_pos hl, ht]
    · intro op hop
      rcases List.mem_cons.mp hop with rfl | hop
      · rfl
      · exact hno op hop

theorem epkSlots_all_present
    {ensure : CacheKey → Backend → CMState → Option (Backend × CMState × List Op)}
    {resolve : Backend → CacheKey → CMState → Option (Ident × CMState)}
    (hres : ∀ (b' : Backend) (ck : CacheKey) (s'' : CMState) (v : Ident),
      s''.ids.lookup ck.tag = some v → resolve b' ck s'' = some (v, s''))
    {id : Ident} {out : Nat} {dg : String} :
    ∀ (slots : List (List (CacheKey × String))) (i : Nat) (b : Backend) (s : CMState),
      (∀ j : Fin slots.length, ∀ e ∈ slots.get j, ∃ pid,
        s.ids.lookup e.1.tag = some pid ∧
        b.hasLink pid ⟨i + j.1, out, dg, e.2⟩ id = true) →
      ∃ t, epkSlots ensure resolve id out dg i slots b s = some (b, s, t) ∧
        ∀ op ∈ t, op.isAddLink = false := by
  intro slots
  induction slots with
  | nil =>
    intro i b s hp
    exact ⟨[], rfl, by simp⟩
  | cons g rest ih =>
    intro i b s hp
    obtain ⟨t₁, ht₁, hno₁⟩ := epkDeps_all_present hres g b s (by
      intro e he
      have hh := hp ⟨0, by simp⟩ e (by simpa using he)
      simpa using hh)
    obtain ⟨t₂, ht₂, hno₂⟩ := ih (i + 1) b s (by
      intro j e he
      have hh := hp j.succ e (by simpa using he)
      have harith : i + j.1 + 1 = i + (j.1 + 1) := by omega
      rw [show ((j.succ : Fin (g :: rest).length) : Nat) = j.1 + 1 from rfl] at hh
      rw [show i + 1 + j.1 = i + (j.1 + 1) from by omega]
      exact hh)
    refine ⟨t₁ ++ t₂, ?_, ?_⟩
    · simp only [epkSlots]
      rw [ht₁]
      simp only
      rw [ht₂]
    · intro op hop
      rcases List.mem_append.mp hop with hop | hop
      · exact hno₁ op hop
      · exact hno₂ op hop

theorem epkDeps_mono
    {ensure : CacheKey → Backend → CMState → Option (Backend × CMState × List Op)}
    {resolve : Backend → CacheKey → CMState → Option (Ident × CMState)}
    (hens : ∀ (ck : CacheKey) (b' : Backend) (s' : CMState) (r : Backend × CMState × List Op),
      ensure ck b' s' = some r → b'.links ⊆ r.1.links ∧ IdsMono s' r.2.1)
    (hresM : ∀ (b' : Backend) (ck : CacheKey) (s' : CMState) (r : Ident × CMState),
      resolve b' ck s' = some r → IdsMono s' r.2)
    {id : Ident} {out : Nat} {dg : String} {i : Nat} :
    ∀ (entries : List (CacheKey × String)) (b : Backend) (s : CMState)
      (r : Backend × CMState × List Op),
      epkDeps ensure resolve id out dg i entries b s = some r →
      b.links ⊆ r.1.links ∧ IdsMono s r.2.1 := by
  intro entries
  induction entries with
  | nil =>
    intro b s r h
    simp only [epkDeps, Option.some.injEq] at h
    rw [← h]
    exact ⟨List.Subset.refl _, idsMono_refl s⟩
  | cons e rest ih =>
    intro b s r h
    obtain ⟨ck, sel⟩ := e
    simp only [epkDeps] at h
    cases hr : resolve b ck s with
    | none => rw [hr] at h; cases h
    | some p =>
      obtain ⟨ckID, s₁⟩ := p
      rw [hr] at h
      simp only at h
      have hm₁ : IdsMono s s₁ := hresM b ck s (ckID, s₁) hr
      by_cases hl : b.hasLink ckID ⟨i, out, dg, sel⟩ id = true
      · rw [if_pos hl] at h
        cases hrec : epkDeps ensure resolve id out dg i rest b s₁ with
        | none => rw [hrec] at h; cases h
        | some q =>
          obtain ⟨b', s', t⟩ := q
          rw [hrec] at h
          cases h
          obtain ⟨q1, q2⟩ := ih b s₁ (b', s', t) hrec
          exact ⟨q1, idsMono_trans hm₁ q2⟩
      · rw [if_neg hl] at h
        cases hen : ensure ck b s₁ with
        | none => rw [hen] at h; cases h
        | some q =>
          obtain ⟨b₁, s₂, t₁⟩ := q
          rw [hen] at h
          simp only at h
          obtain ⟨e1, e2⟩ := hens ck b s₁ (b₁, s₂, t₁) hen
          cases hrec : epkDeps ensure resolve id out dg i rest
              (b₁.addLink ckID ⟨i, out, dg, sel⟩ id) s₂ with
          | none => rw [hrec] at h; cases h
          | some q₂ =>
            obtain ⟨b₃, s₃, t₂⟩ := q₂
            rw [hrec] at h
            cases h
            obtain ⟨r1, r2⟩ := ih _ s₂ (b₃, s₃, t₂) hrec
            constructor
            · intro x hx
              apply r1
              simp only [Backend.addLink, List.mem_append]
              exact Or.inl (e1 hx)
            · exact idsMono_trans hm₁ (idsMono_trans e2 r2)

theorem epkSlots_mono
    {ensure : CacheKey → Backend → CMState → Option (Backend × CMState × List Op)}
    {resolve : Backend → CacheKey → CMState → Option (Ident × CMState)}
    (hens : ∀ (ck : CacheKey) (b' : Backend) (s' : CMState) (r : Backend × CMState × List Op),
      ensure ck b' s' = some r → b'.links ⊆ r.1.links ∧ IdsMono s' r.2.1)
    (hresM : ∀ (b' : Backend) (ck : CacheKey) (s' : CMState) (r : Ident × CMState),
      resolve b' ck s' = some r → IdsMono s' r.2)
    {id : Ident} {out : Nat} {dg : String} :
    ∀ (slots : List (List (CacheKey × String))) (i : Nat) (b : Backend) (s : CMState)
      (r : Backend × CMState × List Op),
      epkSlots ensure resolve id out dg i slots b s = some r →
      b.links ⊆ r.1.links ∧ IdsMono s r.2.1 := by
  intro slots
  induction slots with
  | nil =>
    intro i b s r h
    simp only [epkSlots, Option.some.injEq] at h
    rw [← h]
    exact ⟨List.Subset.refl _, idsMono_refl s⟩
  | cons g rest ih =>
    intro i b s r h
    simp only [epkSlots] at h
    cases hd : epkDeps ensure resolve id out dg i g b s with
    | none => rw [hd] at h; cases h
    | some q =>
      obtain ⟨b₁, s₁, t₁⟩ := q
      rw [hd] at h
      simp only at h
      cases hrec : epkSlots ensure resolve id out dg (i + 1) rest b₁ s₁ with
      | none => rw [hrec] at h; cases h
      | some q₂ =>
        obtain ⟨b₂, s₂, t₂⟩ := q₂
        rw [hrec] at h
        cases h
        obtain ⟨d1, d2⟩ := epkDeps_mono hens hresM g b s (b₁, s₁, t₁) hd
        obtain ⟨r1, r2⟩ := ih (i + 1) b₁ s₁ (b₂, s₂, t₂) hrec
        exact ⟨fun x hx => r1 (d1 hx), idsMono_trans d2 r2⟩

theorem ensurePersistentKey_mono (gen : Nat → Ident) :
    ∀ (fuel : Nat) (k : CacheKey) (b : Backend) (s : CMState)
      (r : Backend × CMState × List Op),
      ensurePersistentKey gen fuel k b s = some r →
      b.links ⊆ r.1.links ∧ IdsMono s r.2.1 := by
  intro fuel
  induction fuel with
  | zero => intro k b s r h; cases h
  | succ fl ih =>
    intro k b s r h
    simp only [ensurePersistentKey] at h
    cases hg : getID gen b (fl + 1) k s with
    | none => rw [hg] at h; cases h
    | some p =>
      obtain ⟨id, s₁⟩ := p
      rw [hg] at h
      simp only at h
      obtain ⟨m1, m2⟩ := epkSlots_mono
        (fun ck b' s' r' hr' => ih ck b' s' r' hr')
        (fun b' ck s' r' hr' => getID_idsMono (fl + 1) hr')
        k.deps 0 b s₁ r h
      exact ⟨m1, idsMono_trans (getID_idsMono (fl + 1) hg) m2⟩

theorem epkDeps_post
    {ensure : CacheKey → Backend → CMState → Option (Backend × CMState × List Op)}
    {resolve : Backend → CacheKey → CMState → Option (Ident × CMState)}
    (hens : ∀ (ck : CacheKey) (b' : Backend) (s' : CMState) (r : Backend × CMState × List Op),
      ensure ck b' s' = some r → b'.links ⊆ r.1.links ∧ IdsMono s' r.2.1)
    (hresM : ∀ (b' : Backend) (ck : CacheKey) (s' : CMState) (r : Ident × CMState),
      resolve b' ck s' = some r → IdsMono s' r.2)
    (hresP : ∀ (b' : Backend) (ck : CacheKey) (s' : CMState) (r : Ident × CMState),
      resolve b' ck s' = some r → r.2.ids.lookup ck.tag = some r.1)
    {id : Ident} {out : Nat} {dg : String} {i : Nat} :
    ∀ (entries : List (CacheKey × String)) (b : Backend) (s : CMState) (b' : Backend)
      (s' : CMState) (t : List Op),
      epkDeps ensure resolve id out dg i entries b s = some (b', s', t) →
      ∀ e ∈ entries, ∃ pid, s'.ids.lookup e.1.tag = some pid ∧
        b'.hasLink pid ⟨i, out, dg, e.2⟩ id = true := by
  intro entries
  induction entries with
  | nil =>
    intro b s b' s' t h e he
    cases he
  | cons e₀ rest ih =>
    intro b s b' s' t h e he
    obtain ⟨ck, sel⟩ := e₀
    simp only [epkDeps] at h
    cases hr : resolve b ck s with
    | none => rw [hr] at h; cases h
    | some p =>
      obtain ⟨ckID, s₁⟩ := p
      rw [hr] at h
      simp only at h
      have hpost : s₁.ids.lookup ck.tag = some ckID := hresP b ck s (ckID, s₁) hr
      by_cases hl : b.hasLink ckID ⟨i, out, dg, sel⟩ id = true
      · rw [if_pos hl] at h
        cases hrec : epkDeps ensure resolve id out dg i rest b s₁ with
        | none => rw [hrec] at h; cases h
        | some q =>
          obtain ⟨b₂, s₂, t₂⟩ := q
          rw [hrec] at h
          cases h
          obtain ⟨m1, m2⟩ := epkDeps_mono hens hresM rest b s₁ (b', s', t₂) hrec
          rcases List.mem_cons.mp he with rfl | he
          · refine ⟨ckID, m2 ck.tag ckID hpost, ?_⟩
            rw [hasLink_iff]
            exact m1 (hasLink_iff.mp hl)
          · exact ih b s₁ b' s' t₂ hrec e he
      · rw [if_neg hl] at h
        cases hen : ensure ck b s₁ with
        | none => rw [hen] at h; cases h
        | some q =>
          obtain ⟨b₁, s₂, t₁⟩ := q
          rw [hen] at h
          simp only at h
          obtain ⟨e1, e2⟩ := hens ck b s₁ (b₁, s₂, t₁) hen
          cases hrec : epkDeps ensure resolve id out dg i rest
              (b₁.addLink ckID ⟨i, out, dg, sel⟩ id) s₂ with
          | none => rw [hrec] at h; cases h
          | some q₂ =>
            obtain ⟨b₃, s₃, t₂⟩ := q₂
            rw [hrec] at h
            cases h
            obtain ⟨m1, m2⟩ := epkDeps_mono hens hresM rest _ s₂ (b', s', t₂) hrec
            rcases List.mem_cons.mp he with rfl | he
            · refine ⟨ckID, m2 ck.tag ckID (e2 ck.tag ckID hpost), ?_⟩
              rw [hasLink_iff]
              apply m1
              simp [Backend.addLink]
            · exact ih _ s₂ b' s' t₂ hrec e he

theorem epkSlots_post
    {ensure : CacheKey → Backend → CMState → Option (Backend × CMState × List Op)}
    {resolve : Backend → CacheKey → CMState → Option (Ident × CMState)}
    (hens : ∀ (ck : CacheKey) (b' : Backend) (s' : CMState) (r : Backend × CMState × List Op),
      ensure ck b' s' = some r → b'.links ⊆ r.1.links ∧ IdsMono s' r.2.1)
    (hresM : ∀ (b' : Backend) (ck : CacheKey) (s' : CMState) (r : Ident × CMState),
      resolve b' ck s' = some r → IdsMono s' r.2)
    (hresP : ∀ (b' : Backend) (ck : CacheKey) (s' : CMState) (r : Ident × CMState),
      resolve b' ck s' = some r → r.2.ids.lookup ck.tag = some r.1)
    {id : Ident} {out : Nat} {dg : String} :
    ∀ (slots : List (List (CacheKey × String))) (i : Nat) (b : Backend) (s : CMState)
      (b' : Backend) (s' : CMState) (t : List Op),
      epkSlots ensure resolve id out dg i slots b s = some (b', s', t) →
      ∀ j : Fin slots.length, ∀ e ∈ slots.get j, ∃ pid,
        s'.ids.lookup e.1.tag = some pid ∧
        b'.hasLink pid ⟨i + j.1, out, dg, e.2⟩ id = true := by
  intro slots
  induction slots with
  | nil =>
    intro i b s b' s' t h j
    exact j.elim0
  | cons g rest ih =>
    intro i b s b' s' t h j e he
    simp only [epkSlots] at h
    cases hd : epkDeps ensure resolve id out dg i g b s with
    | none => rw [hd] at h; cases h
    | some q =>
      obtain ⟨b₁, s₁, t₁⟩ := q
      rw [hd] at h
      simp only at h
      cases hrec : epkSlots ensure resolve id out dg (i + 1) rest b₁ s₁ with
      | none => rw [hrec] at h; cases h
      | some q₂ =>
        obtain ⟨b₂, s₂, t₂⟩ := q₂
        rw [hrec] at h
        cases h
        refine Fin.cases ?_ ?_ j he
        · intro he₀
          obtain ⟨m1, m2⟩ := epkSlots_mono hens hresM rest (i + 1) b₁ s₁ (b', s', t₂) hrec
          obtain ⟨pid, hpid, hl⟩ := epkDeps_post hens hresM hresP g b s b₁ s₁ t₁ hd e
            (by simpa using he₀)
          refine ⟨pid, m2 e.1.tag pid hpid, ?_⟩
          rw [hasLink_iff]
          simpa using m1 (hasLink_iff.mp hl)
        · intro j' he'
          obtain ⟨pid, hpid, hl⟩ := ih (i + 1) b₁ s₁ b' s' t₂ hrec j' e (by simpa using he')
          refine ⟨pid, hpid, ?_⟩
          simp only [Fin.val_succ]
          rw [show i + (j'.1 + 1) = i + 1 + j'.1 from by omega]
          exact hl

theorem ensurePersistentKey_post (gen : Nat → Ident) (fl : Nat) (k : CacheKey)
    (b : Backend) (s : CMState) (b₁ : Backend) (s₁ : CMState) (t₁ : List Op)
    (h : ensurePersistentKey gen (fl + 1) k b s = some (b₁, s₁, t₁)) :
    ∃ id, s₁.ids.lookup k.tag = some id ∧
      ∀ gi : Fin k.deps.length, ∀ e ∈ k.deps.get gi, ∃ pid,
        s₁.ids.lookup e.1.tag = some pid ∧
        b₁.hasLink pid ⟨gi.1, k.output, k.digest, e.2⟩ id = true := by
  simp only [ensurePersistentKey] at h
  cases hg : getID gen b (fl + 1) k s with
  | none => rw [hg] at h; cases h
  | some p =>
    obtain ⟨id, s₂⟩ := p
    rw [hg] at h
    simp only at h
    have hens : ∀ (ck : CacheKey) (b' : Backend) (s' : CMState)
        (r : Backend × CMState × List Op),
        ensurePersistentKey gen fl ck b' s' = some r →
        b'.links ⊆ r.1.links ∧ IdsMono s' r.2.1 :=
      fun ck b' s' r hr => ensurePersistentKey_mono gen fl ck b' s' r hr
    have hresM : ∀ (b' : Backend) (ck : CacheKey) (s' : CMState) (r : Ident × CMState),
        getID gen b' (fl + 1) ck s' = some r → IdsMono s' r.2 :=
      fun b' ck s' r hr => getID_idsMono (fl + 1) hr
    have hresP : ∀ (b' : Backend) (ck : CacheKey) (s' : CMState) (r : Ident × CMState),
        getID gen b' (fl + 1) ck s' = some r → r.2.ids.lookup ck.tag = some r.1 :=
      fun b' ck s' r hr => getID_post hr
    refine ⟨id, ?_, ?_⟩
    · obtain ⟨_, m2⟩ := epkSlots_mono hens hresM k.deps 0 b s₂ (b₁, s₁, t₁) h
      exact m2 k.tag id (getID_post hg)
    · intro gi e he
      have hh := epkSlots_post hens hresM hresP k.deps 0 b s₂ b₁ s₁ t₁ h gi e he
      simpa using hh

/-- C4: ensurePersistentKey is idempotent: on a key whose resolved
derivation edges all already exist as links, the call performs only
HasLink existence checks — no AddLink write, no backend or state change;
in particular a second call immediately after any successful first call
issues no AddLink write and changes nothing. -/
theorem c4_ensurePersistentKey_idempotent :
    (∀ (gen : Nat → Ident) (fl : Nat) (k : CacheKey) (b : Backend) (s : CMState)
        (id : Ident),
        s.ids.lookup k.tag = some id →
        (∀ gi : Fin k.deps.length, ∀ e ∈ k.deps.get gi, ∃ pid,
          s.ids.lookup e.1.tag = some pid ∧
          b.hasLink pid ⟨gi.1, k.output, k.digest, e.2⟩ id = true) →
        ∃ t, ensurePersistentKey gen (fl + 1) k b s = some (b, s, t) ∧
          ∀ op ∈ t, op.isAddLink = false) ∧
    (∀ (gen : Nat → Ident) (fl : Nat) (k : CacheKey) (b : Backend) (s : CMState)
        (b₁ : Backend) (s₁ : CMState) (t₁ : List Op),
        ensurePersistentKey gen (fl + 1) k b s = some (b₁, s₁, t₁) →
        ∃ t₂, ensurePersistentKey gen (fl + 1) k b₁ s₁ = some (b₁, s₁, t₂) ∧
          ∀ op ∈ t₂, op.isAddLink = false) := by
  have hres : ∀ (gen : Nat → Ident) (fl : Nat) (b' : Backend) (ck : CacheKey)
      (s'' : CMState) (v : Ident), s''.ids.lookup ck.tag = some v →
      getID gen b' (fl + 1) ck s'' = some (v, s'') :=
    fun gen fl b' ck s'' v hv => getID_hit hv
  have partA : ∀ (gen : Nat → Ident) (fl : Nat) (k : CacheKey) (b : Backend) (s : CMState)
      (id : Ident),
      s.ids.lookup k.tag = some id →
      (∀ gi : Fin k.deps.length, ∀ e ∈ k.deps.get gi, ∃ pid,
        s.ids.lookup e.1.tag = some pid ∧
        b.hasLink pid ⟨gi.1, k.output, k.digest, e.2⟩ id = true) →
      ∃ t, ensurePersistentKey gen (fl + 1) k b s = some (b, s, t) ∧
        ∀ op ∈ t, op.isAddLink = false := by
    intro gen fl k b s id hid hp
    obtain ⟨t, ht, hno⟩ := epkSlots_all_present (hres gen fl) k.deps 0 b s (by
      intro j e he
      obtain ⟨pid, hpid, hl⟩ := hp j e he
      exact ⟨pid, hpid, by simpa using hl⟩)
    refine ⟨t, ?_, hno⟩
    simp only [ensurePersistentKey]
    rw [getID_hit hid]
    simp only
    exact ht
  refine ⟨partA, ?_⟩
  intro gen fl k b s b₁ s₁ t₁ h
  obtain ⟨id₀, hi, hp⟩ := ensurePersistentKey_post gen fl k b s b₁ s₁ t₁ h
  exact partA gen fl k b₁ s₁ id₀ hi hp

theorem c4_ensurePersistentKey_idempotent_witness :
    (List.lookup (0 : Nat) [(0, "c"), (1, "p")] = some "c") ∧
    ((⟨[("p", ⟨0, 0, "D", ""⟩, "c")], fun _ _ => false, [], fun _ => [], fun _ => none,
        fun _ _ => none⟩ : Backend).hasLink "p" ⟨0, 0, "D", ""⟩ "c" = true) ∧
    (ensurePersistentKey Nat.repr 1
        (CacheKey.mk 0 "D" 0 "c" [[(CacheKey.mk 1 "dp" 0 "p" [], "")]])
        ⟨[("p", ⟨0, 0, "D", ""⟩, "c")], fun _ _ => false, [], fun _ => [], fun _ => none,
          fun _ _ => none⟩
        ⟨[(0, "c"), (1, "p")], 0, 0⟩).isSome = true ∧
    Op.isAddLink (Op.hasLink "p" ⟨0, 0, "D", ""⟩ "c") = false := by
  obtain ⟨t, ht, hno⟩ := c4_ensurePersistentKey_idempotent.1 Nat.repr 0
    (CacheKey.mk 0 "D" 0 "c" [[(CacheKey.mk 1 "dp" 0 "p" [], "")]])
    ⟨[("p", ⟨0, 0, "D", ""⟩, "c")], fun _ _ => false, [], fun _ => [], fun _ => none,
      fun _ _ => none⟩
    ⟨[(0, "c"), (1, "p")], 0, 0⟩ "c" (by decide) (by decide)
  refine ⟨by decide, by decide, ?_, by decide⟩
  rw [ht]
  rfl

end Solver
